import Mathlib

/-!
Verification development for the COFFEE expression rewriter
(`coffee/rewriter.py` together with the `ExpressionGraph` of
`coffee/optimizer.py`).

The Python AST is shallowly embedded as the inductive type `Aexpr`;
numeric literals are modelled as exact rationals.  Helper routines of the
repository that are not part of the provided sources (`ast_replace`,
`ast_make_expr`, `explore_operator`, the visitor classes, `MetaExpr` and
the `ast_analyzer.ExpressionGraph`) are modelled from the specification,
as noted in the corresponding doc comments.
-/

/-- The value carried by a COFFEE `Symbol` node: either a textual name or
a numeric literal (Python `int`/`float`, modelled as an exact rational). -/
inductive SymName where
  | name : String → SymName
  | num : ℚ → SymName
deriving DecidableEq, Repr

/-- Shallow embedding of the COFFEE expression AST nodes manipulated by the
rewriter: `Symbol` (with its rank of dimension names), `Sum`, `Sub`,
`Prod`, `Div`, `Par` and `Neg`.  `FunCall` and `Ternary` do not occur in
the statements exercised here and are left out of the grammar. -/
inductive Aexpr where
  | sym : SymName → List String → Aexpr
  | sum : Aexpr → Aexpr → Aexpr
  | sub : Aexpr → Aexpr → Aexpr
  | prod : Aexpr → Aexpr → Aexpr
  | div : Aexpr → Aexpr → Aexpr
  | par : Aexpr → Aexpr
  | neg : Aexpr → Aexpr
deriving DecidableEq, Repr

/-- Expression markers of `ExpressionExtractor`: `EXT = 0` (extract) and
`STOP = 1` (do not extract). -/
inductive EKind where
  | EXT : EKind
  | STOP : EKind
deriving DecidableEq, Repr

/-- Hoisting modes accepted by `ExpressionExtractor.__call__`. -/
inductive EMode where
  | normal : EMode
  | aggressive : EMode
  | only_const : EMode
  | only_domain : EMode
  | only_outdomain : EMode
deriving DecidableEq, Repr

/-- The fields of `MetaExpr` consulted by the extractor: the ordered loop
dimensions of the expression (`dims`), the domain dimensions and the
out-of-domain dimensions.  `MetaExpr` lives outside the provided sources;
the fields are modelled from the specification (§3). -/
structure MetaInfo where
  dims : List String
  domain_dims : List String
  out_domain_dims : List String
deriving DecidableEq, Repr

/-- The `extracted` ordered map of the extractor: dependency tuples to the
list of recorded subtrees, in insertion order (Python `OrderedDict`). -/
abbrev ExtMap := List (List String × List Aexpr)

/-- `self.extracted.setdefault(tuple(dep), []).append(node)`: append `v`
under key `k`, keeping first-come key order. -/
def extPush (m : ExtMap) (k : List String) (v : Aexpr) : ExtMap :=
  match m with
  | [] => [(k, [v])]
  | (k0, vs) :: rest =>
    if k0 = k then (k0, vs ++ [v]) :: rest else (k0, vs) :: extPush rest k v

/-- `ExpressionExtractor._try`: decide whether `node` should be extracted
under mode `mode`, record it in the `extracted` map when extraction is
possible (or when `look_ahead` is set), and return the decision.  A bare
`Symbol` is never extracted and never recorded. -/
def extTry (mode : EMode) (lookAhead : Bool) (info : MetaInfo)
    (node : Aexpr) (dep : Finset String) (st : ExtMap) : Bool × ExtMap :=
  match node with
  | .sym _ _ => (false, st)
  | _ =>
    let se : Bool :=
      match mode with
      | .aggressive => true
      | .only_const => !(decide (dep ≠ ∅ ∧ dep ⊆ info.dims.toFinset))
      | .only_domain => !(decide (dep ⊆ info.out_domain_dims.toFinset))
      | .only_outdomain => decide (dep ⊆ info.out_domain_dims.toFinset)
      | .normal => true
    let st' := if se || lookAhead then
        extPush st (info.dims.filter (fun d => d ∈ dep)) node
      else st
    (se, st')

/-- `ExpressionExtractor._soft` (the step used for mode `only_domain`):
with two `EXT` children whose dependency sets are in a (strict) subset
relation it tries the side with the *larger* dependency set, propagating
the union as `EXT` if that extraction is rejected. -/
def extSoft (mode : EMode) (lookAhead : Bool) (info : MetaInfo)
    (left right : Aexpr) (depL depR depN : Finset String)
    (infoL infoR : EKind) (st : ExtMap) : (Finset String × EKind) × ExtMap :=
  if infoL = .EXT ∧ infoR = .EXT then
    if depL = depR then ((depL, .EXT), st)
    else if depL ⊆ depR then
      let t := extTry mode lookAhead info right depR st
      if t.1 then ((depN, .STOP), t.2) else ((depN, .EXT), t.2)
    else if depR ⊆ depL then
      let t := extTry mode lookAhead info left depL st
      if t.1 then ((depN, .STOP), t.2) else ((depN, .EXT), t.2)
    else
      let t1 := extTry mode lookAhead info left depL st
      let t2 := extTry mode lookAhead info right depR t1.2
      ((depN, .STOP), t2.2)
  else if infoR = .EXT then
    let t := extTry mode lookAhead info right depR st
    ((depN, .STOP), t.2)
  else if infoL = .EXT then
    let t := extTry mode lookAhead info left depL st
    ((depN, .STOP), t.2)
  else ((depN, .STOP), st)

/-- `ExpressionExtractor._normal` (the step used for modes `normal`,
`only_const` and `only_outdomain`): with two `EXT` children whose
dependency sets are in a (strict) subset relation it tries the side with
the *smaller* dependency set, propagating the union as `EXT` if that
extraction is rejected.  Constant-against-dependent children get their own
branches mirroring the Python short-circuit evaluation order. -/
def extNormal (mode : EMode) (lookAhead : Bool) (info : MetaInfo)
    (left right : Aexpr) (depL depR depN : Finset String)
    (infoL infoR : EKind) (st : ExtMap) : (Finset String × EKind) × ExtMap :=
  if infoL = .EXT ∧ infoR = .EXT then
    if depL = depR then ((depL, .EXT), st)
    else if depL = ∅ then
      if info.domain_dims.toFinset ∩ depR = ∅ then ((depR, .EXT), st)
      else
        let t1 := extTry mode lookAhead info left depL st
        if t1.1 then ((depN, .STOP), t1.2)
        else
          let t2 := extTry mode lookAhead info right depR t1.2
          if t2.1 then ((depN, .STOP), t2.2) else ((depR, .EXT), t2.2)
    else if depR = ∅ then
      if info.domain_dims.toFinset ∩ depL = ∅ then ((depL, .EXT), st)
      else
        let t1 := extTry mode lookAhead info right depR st
        if t1.1 then ((depN, .STOP), t1.2)
        else
          let t2 := extTry mode lookAhead info left depL t1.2
          if t2.1 then ((depN, .STOP), t2.2) else ((depL, .EXT), t2.2)
    else if depL ⊆ depR then
      let t := extTry mode lookAhead info left depL st
      if t.1 then ((depN, .STOP), t.2) else ((depN, .EXT), t.2)
    else if depR ⊆ depL then
      let t := extTry mode lookAhead info right depR st
      if t.1 then ((depN, .STOP), t.2) else ((depN, .EXT), t.2)
    else
      let t1 := extTry mode lookAhead info left depL st
      let t2 := extTry mode lookAhead info right depR t1.2
      ((depN, .STOP), t2.2)
  else if infoR = .EXT then
    let t := extTry mode lookAhead info right depR st
    ((depN, .STOP), t.2)
  else if infoL = .EXT then
    let t := extTry mode lookAhead info left depL st
    ((depN, .STOP), t.2)
  else ((depN, .STOP), st)

/-- `ExpressionExtractor._aggressive`: like `_normal` on subset-related
dependency sets (the smaller side is tried), but a constant child makes
only the non-constant side a candidate, and disjoint non-empty dependency
sets propagate the union as `EXT` (an N-dimensional temporary). -/
def extAggr (mode : EMode) (lookAhead : Bool) (info : MetaInfo)
    (left right : Aexpr) (depL depR depN : Finset String)
    (infoL infoR : EKind) (st : ExtMap) : (Finset String × EKind) × ExtMap :=
  if infoL = .EXT ∧ infoR = .EXT then
    if depL = depR then ((depL, .EXT), st)
    else if depL = ∅ then
      let t := extTry mode lookAhead info right depR st
      ((depN, .STOP), t.2)
    else if depR = ∅ then
      let t := extTry mode lookAhead info left depL st
      ((depN, .STOP), t.2)
    else if depL ⊆ depR then
      let t := extTry mode lookAhead info left depL st
      if t.1 then ((depN, .STOP), t.2) else ((depN, .EXT), t.2)
    else if depR ⊆ depL then
      let t := extTry mode lookAhead info right depR st
      if t.1 then ((depN, .STOP), t.2) else ((depN, .EXT), t.2)
    else ((depN, .EXT), st)
  else if infoR = .EXT then
    let t := extTry mode lookAhead info right depR st
    ((depN, .STOP), t.2)
  else if infoL = .EXT then
    let t := extTry mode lookAhead info left depL st
    ((depN, .STOP), t.2)
  else ((depN, .STOP), st)

/-- The shared tail of `ExpressionExtractor._extract` for a binary node:
filter out false dependencies (those outside `expr_info.dims`), form the
union and dispatch on the mode to `_normal`, `_soft` or `_aggressive`. -/
def extStep (mode : EMode) (lookAhead : Bool) (info : MetaInfo)
    (left right : Aexpr) (dl dr : Finset String)
    (il ir : EKind) (st : ExtMap) : (Finset String × EKind) × ExtMap :=
  let depL := dl.filter (fun d => d ∈ info.dims)
  let depR := dr.filter (fun d => d ∈ info.dims)
  let depN := depL ∪ depR
  match mode with
  | .normal | .only_const | .only_outdomain =>
    extNormal mode lookAhead info left right depL depR depN il ir st
  | .only_domain =>
    extSoft mode lookAhead info left right depL depR depN il ir st
  | .aggressive =>
    extAggr mode lookAhead info left right depL depR depN il ir st

/-- `ExpressionExtractor._extract`: post-order classification returning the
dependency set and the `EXT`/`STOP` marker while recording extractable
subtrees.  `lda` maps a `Symbol` occurrence to its loop-dependency set.
A `Neg` node has a single child, so the Python tuple unpacking
`left, right = node.children` fails there; this is modelled by `none`. -/
def extExtract (mode : EMode) (lookAhead : Bool) (info : MetaInfo)
    (lda : SymName → List String → Finset String) :
    Aexpr → ExtMap → Option ((Finset String × EKind) × ExtMap)
  | .sym n r, st => some ((lda n r, .EXT), st)
  | .par c, st => extExtract mode lookAhead info lda c st
  | .neg _, _ => none
  | .sum l r, st =>
    match extExtract mode lookAhead info lda l st with
    | none => none
    | some ((dl, il), st1) =>
      match extExtract mode lookAhead info lda r st1 with
      | none => none
      | some ((dr, ir), st2) =>
        some (extStep mode lookAhead info l r dl dr il ir st2)
  | .sub l r, st =>
    match extExtract mode lookAhead info lda l st with
    | none => none
    | some ((dl, il), st1) =>
      match extExtract mode lookAhead info lda r st1 with
      | none => none
      | some ((dr, ir), st2) =>
        some (extStep mode lookAhead info l r dl dr il ir st2)
  | .prod l r, st =>
    match extExtract mode lookAhead info lda l st with
    | none => none
    | some ((dl, il), st1) =>
      match extExtract mode lookAhead info lda r st1 with
      | none => none
      | some ((dr, ir), st2) =>
        some (extStep mode lookAhead info l r dl dr il ir st2)
  | .div l r, st =>
    match extExtract mode lookAhead info lda l st with
    | none => none
    | some ((dl, il), st1) =>
      match extExtract mode lookAhead info lda r st1 with
      | none => none
      | some ((dr, ir), st2) =>
        some (extStep mode lookAhead info l r dl dr il ir st2)

/-- `ExpressionExtractor.__call__` without the round-counter bump: run the
classification on a right-hand side starting from an empty `extracted`
map and return the resulting ordered map. -/
def extractorRun (mode : EMode) (lookAhead : Bool) (info : MetaInfo)
    (lda : SymName → List String → Finset String) (rvalue : Aexpr) :
    Option ExtMap :=
  (extExtract mode lookAhead info lda rvalue []).map (fun r => r.2)

/-- Rewriter-session state visible to `ExpressionRewriter.licm`: the
statement right-hand side, the hoisted registry (name to defining
right-hand side), the expression-graph edges, and the extractor round
counter. -/
structure RewState where
  rvalue : Aexpr
  hoisted : List (String × Aexpr)
  graphEdges : List (SymName × SymName)
  counter : Nat
deriving DecidableEq, Repr

/-- `ExpressionRewriter.licm` with `look_ahead` set (rewriter.py lines
117-118), composed with `ExpressionHoister.extract` and
`ExpressionExtractor.__call__`: the classification map is computed on the
statement right-hand side; the only state written is the extractor round
counter (`self.counter += 1`). -/
def licmLookAhead (mode : EMode) (info : MetaInfo)
    (lda : SymName → List String → Finset String) (st : RewState) :
    Option (ExtMap × RewState) :=
  (extExtract mode true info lda st.rvalue []).map
    (fun r => (r.2, { st with counter := st.counter + 1 }))

/-- Expansion markers of `ExpressionExpander`: `GROUP = 0` (will not
trigger expansion) and `EXPAND = 1` (could be expanded). -/
inductive XKind where
  | GROUP : XKind
  | EXPAND : XKind
deriving DecidableEq, Repr

/-- `ast_make_expr(Sum, exprs)`.  Modelled from the spec: the sum of a
non-empty list of expressions; a singleton list yields its element.  (The
empty case never arises from the expander.) -/
def mkSum : List Aexpr → Aexpr
  | [] => .sym (.num 0) []
  | x :: xs => xs.foldl .sum x

/-- `ExpressionExpander._expand` as a pure function returning the list of
expandable subexpressions, the `EXPAND`/`GROUP` marker and the rewritten
tree.  `p` is the `should_expand` predicate on `Symbol` nodes.  The
substitution step of the source (`ast_replace` on the expandable side and
`ast_make_expr`, both outside the provided sources) is modelled from the
specification (§4.5): a `Prod` with an expandable side is replaced by the
sum of the products `Prod(e, g)` of its expandable subexpressions `e` with
the groupable factors `g`.  A `Neg` node reaches the `else` branch of the
source and raises `RuntimeError`, modelled by `none`. -/
def expandX (p : SymName → List String → Bool) :
    Aexpr → Option (List Aexpr × XKind × Aexpr)
  | .sym n r =>
    some ([.sym n r], if p n r then .EXPAND else .GROUP, .sym n r)
  | .par c =>
    match expandX p c with
    | none => none
    | some (es, k, c') => some (es, k, .par c')
  | .div l r =>
    match expandX p l, expandX p r with
    | some (_, _, l'), some (_, _, r') =>
      some ([.div l' r'], .GROUP, .div l' r')
    | _, _ => none
  | .prod l r =>
    match expandX p l, expandX p r with
    | some (les, lk, l'), some (res, rk, r') =>
      if lk = .GROUP ∧ rk = .GROUP then
        some ([.prod l' r'], .GROUP, .prod l' r')
      else
        let grpbl := if lk = .GROUP then les else res
        let expbl := if lk = .GROUP then res else les
        let exps := expbl.flatMap (fun e => grpbl.map (fun g => .prod e g))
        some (exps, .EXPAND, mkSum exps)
    | _, _ => none
  | .sum l r =>
    match expandX p l, expandX p r with
    | some (les, lk, l'), some (res, rk, r') =>
      if lk = .EXPAND ∧ rk = .EXPAND then
        some (les ++ res, .EXPAND, .sum l' r')
      else
        some ([.sum l' r'], .GROUP, .sum l' r')
    | _, _ => none
  | .sub l r =>
    match expandX p l, expandX p r with
    | some (les, lk, l'), some (res, rk, r') =>
      if lk = .EXPAND ∧ rk = .EXPAND then
        some (les ++ res.map .neg, .EXPAND, .sub l' r')
      else
        some ([.sub l' r'], .GROUP, .sub l' r')
    | _, _ => none
  | .neg _ => none

/-- `x` is a `Symbol` node satisfying `should_expand`. -/
def isPsym (p : SymName → List String → Bool) : Aexpr → Bool
  | .sym n r => p n r
  | _ => false

/-- `x` is a `Sum` whose two addends are `should_expand` symbols. -/
def isPsum (p : SymName → List String → Bool) : Aexpr → Bool
  | .sum a b => isPsym p a && isPsym p b
  | _ => false

/-- `x` is a `Sum` node. -/
def isSumNode : Aexpr → Bool
  | .sum _ _ => true
  | _ => false

/-- The pattern forbidden by claim C3, literally: a product of a `Sum`
(with arbitrary addends) and a `should_expand` symbol, on either side. -/
def claimBadPair (p : SymName → List String → Bool) (x y : Aexpr) : Bool :=
  (isSumNode x && isPsym p y) || (isPsym p x && isSumNode y)

/-- No product subterm matches claim C3's literal pattern. -/
def claimGood (p : SymName → List String → Bool) : Aexpr → Bool
  | .sym _ _ => true
  | .sum l r => claimGood p l && claimGood p r
  | .sub l r => claimGood p l && claimGood p r
  | .prod l r => !(claimBadPair p l r) && claimGood p l && claimGood p r
  | .div l r => claimGood p l && claimGood p r
  | .par c => claimGood p c
  | .neg c => claimGood p c

/-- The amended pattern: a product of a `should_expand` symbol with a sum
of two `should_expand` symbols, on either side. -/
def amBadPair (p : SymName → List String → Bool) (x y : Aexpr) : Bool :=
  (isPsum p x && isPsym p y) || (isPsym p x && isPsum p y)

/-- No product subterm matches the amended pattern. -/
def amGood (p : SymName → List String → Bool) : Aexpr → Bool
  | .sym _ _ => true
  | .sum l r => amGood p l && amGood p r
  | .sub l r => amGood p l && amGood p r
  | .prod l r => !(amBadPair p l r) && amGood p l && amGood p r
  | .div l r => amGood p l && amGood p r
  | .par c => amGood p c
  | .neg c => amGood p c

theorem amGood_foldl_sum (p : SymName → List String → Bool) (xs : List Aexpr)
    (a : Aexpr) (ha : amGood p a = true)
    (hxs : ∀ x ∈ xs, amGood p x = true) :
    amGood p (xs.foldl .sum a) = true := by
  induction xs generalizing a with
  | nil => exact ha
  | cons y ys ih =>
    apply ih
    · simp only [amGood, ha, hxs y (by simp), Bool.and_self]
    · intro x hx
      exact hxs x (by simp [hx])

theorem amGood_mkSum (p : SymName → List String → Bool) (xs : List Aexpr)
    (hxs : ∀ x ∈ xs, amGood p x = true) :
    amGood p (mkSum xs) = true := by
  cases xs with
  | nil => rfl
  | cons x xs =>
    exact amGood_foldl_sum p xs x (hxs x (by simp))
      (fun y hy => hxs y (by simp [hy]))

theorem expandX_inv (p : SymName → List String → Bool) :
    ∀ e es k t', expandX p e = some (es, k, t') →
      amGood p t' = true ∧
      (∀ x ∈ es, amGood p x = true ∧ isPsum p x = false) ∧
      (isPsym p t' = true → k = .EXPAND) ∧
      (k = .GROUP → isPsum p t' = false) := by
  intro e
  induction e with
  | sym n r =>
    intro es k t' h
    simp only [expandX, Option.some.injEq, Prod.mk.injEq] at h
    obtain ⟨h1, h2, h3⟩ := h
    subst h1; subst h3
    refine ⟨rfl, ?_, ?_, ?_⟩
    · intro x hx
      simp only [List.mem_singleton] at hx
      subst hx
      exact ⟨rfl, rfl⟩
    · intro hps
      rw [← h2]
      simp only [isPsym] at hps
      simp [hps]
    · intro _
      rfl
  | par c ih =>
    intro es k t' h
    rw [expandX] at h
    cases hc : expandX p c with
    | none => rw [hc] at h; exact absurd h (by simp)
    | some rc =>
      obtain ⟨ces, ck, c'⟩ := rc
      rw [hc] at h
      simp only [Option.some.injEq, Prod.mk.injEq] at h
      obtain ⟨h1, h2, h3⟩ := h
      subst h1; subst h2; subst h3
      obtain ⟨i1, i2, _, _⟩ := ih ces ck c' hc
      exact ⟨by simpa [amGood] using i1, i2, by simp [isPsym], by simp [isPsum]⟩
  | neg c ih =>
    intro es k t' h
    simp [expandX] at h
  | div l r ihl ihr =>
    intro es k t' h
    rw [expandX] at h
    cases hl : expandX p l with
    | none => rw [hl] at h; exact absurd h (by simp)
    | some rl =>
      obtain ⟨les, lk, l'⟩ := rl
      cases hr : expandX p r with
      | none => rw [hl, hr] at h; exact absurd h (by simp)
      | some rr =>
        obtain ⟨res, rk, r'⟩ := rr
        rw [hl, hr] at h
        simp only [Option.some.injEq, Prod.mk.injEq] at h
        obtain ⟨h1, h2, h3⟩ := h
        subst h1; subst h2; subst h3
        obtain ⟨i1, _, _, _⟩ := ihl les lk l' hl
        obtain ⟨j1, _, _, _⟩ := ihr res rk r' hr
        refine ⟨by simp [amGood, i1, j1], ?_, by simp [isPsym], by simp [isPsum]⟩
        intro x hx
        simp only [List.mem_singleton] at hx
        subst hx
        exact ⟨by simp [amGood, i1, j1], by simp [isPsum]⟩
  | sum l r ihl ihr =>
    intro es k t' h
    rw [expandX] at h
    cases hl : expandX p l with
    | none => rw [hl] at h; exact absurd h (by simp)
    | some rl =>
      obtain ⟨les, lk, l'⟩ := rl
      cases hr : expandX p r with
      | none => rw [hl, hr] at h; exact absurd h (by simp)
      | some rr =>
        obtain ⟨res, rk, r'⟩ := rr
        rw [hl, hr] at h
        dsimp only at h
        obtain ⟨i1, i2, i3, i4⟩ := ihl les lk l' hl
        obtain ⟨j1, j2, j3, j4⟩ := ihr res rk r' hr
        by_cases hk : lk = XKind.EXPAND ∧ rk = XKind.EXPAND
        · rw [if_pos hk] at h
          simp only [Option.some.injEq, Prod.mk.injEq] at h
          obtain ⟨h1, h2, h3⟩ := h
          subst h1; subst h3
          refine ⟨by simp [amGood, i1, j1], ?_, fun hps => (h2 ▸ rfl), ?_⟩
          · intro x hx
            rcases List.mem_append.mp hx with hx | hx
            · exact i2 x hx
            · exact j2 x hx
          · intro hG
            rw [← h2] at hG
            exact absurd hG (by simp)
        · rw [if_neg hk] at h
          simp only [Option.some.injEq, Prod.mk.injEq] at h
          obtain ⟨h1, h2, h3⟩ := h
          subst h1; subst h3
          have hpsum : isPsum p (Aexpr.sum l' r') = false := by
            rcases Decidable.not_and_iff_or_not.mp hk with hnl | hnr
            · have : isPsym p l' = false := by
                cases hpl : isPsym p l' with
                | false => rfl
                | true => exact absurd (i3 hpl) hnl
              simp [isPsum, this]
            · have : isPsym p r' = false := by
                cases hpr : isPsym p r' with
                | false => rfl
                | true => exact absurd (j3 hpr) hnr
              simp [isPsum, this]
          refine ⟨by simp [amGood, i1, j1], ?_, by simp [isPsym], fun _ => hpsum⟩
          intro x hx
          simp only [List.mem_singleton] at hx
          subst hx
          exact ⟨by simp [amGood, i1, j1], hpsum⟩
  | sub l r ihl ihr =>
    intro es k t' h
    rw [expandX] at h
    cases hl : expandX p l with
    | none => rw [hl] at h; exact absurd h (by simp)
    | some rl =>
      obtain ⟨les, lk, l'⟩ := rl
      cases hr : expandX p r with
      | none => rw [hl, hr] at h; exact absurd h (by simp)
      | some rr =>
        obtain ⟨res, rk, r'⟩ := rr
        rw [hl, hr] at h
        dsimp only at h
        obtain ⟨i1, i2, i3, i4⟩ := ihl les lk l' hl
        obtain ⟨j1, j2, j3, j4⟩ := ihr res rk r' hr
        by_cases hk : lk = XKind.EXPAND ∧ rk = XKind.EXPAND
        · rw [if_pos hk] at h
          simp only [Option.some.injEq, Prod.mk.injEq] at h
          obtain ⟨h1, h2, h3⟩ := h
          subst h1; subst h3
          refine ⟨by simp [amGood, i1, j1], ?_, by simp [isPsym], ?_⟩
          · intro x hx
            rcases List.mem_append.mp hx with hx | hx
            · exact i2 x hx
            · rcases List.mem_map.mp hx with ⟨y, hy, hxy⟩
              subst hxy
              exact ⟨by simpa [amGood] using (j2 y hy).1, by simp [isPsum]⟩
          · intro hG
            rw [← h2] at hG
            exact absurd hG (by simp)
        · rw [if_neg hk] at h
          simp only [Option.some.injEq, Prod.mk.injEq] at h
          obtain ⟨h1, h2, h3⟩ := h
          subst h1; subst h3
          refine ⟨by simp [amGood, i1, j1], ?_, by simp [isPsym], fun _ => by simp [isPsum]⟩
          intro x hx
          simp only [List.mem_singleton] at hx
          subst hx
          exact ⟨by simp [amGood, i1, j1], by simp [isPsum]⟩
  | prod l r ihl ihr =>
    intro es k t' h
    rw [expandX] at h
    cases hl : expandX p l with
    | none => rw [hl] at h; exact absurd h (by simp)
    | some rl =>
      obtain ⟨les, lk, l'⟩ := rl
      cases hr : expandX p r with
      | none => rw [hl, hr] at h; exact absurd h (by simp)
      | some rr =>
        obtain ⟨res, rk, r'⟩ := rr
        rw [hl, hr] at h
        dsimp only at h
        obtain ⟨i1, i2, i3, i4⟩ := ihl les lk l' hl
        obtain ⟨j1, j2, j3, j4⟩ := ihr res rk r' hr
        by_cases hk : lk = XKind.GROUP ∧ rk = XKind.GROUP
        · rw [if_pos hk] at h
          simp only [Option.some.injEq, Prod.mk.injEq] at h
          obtain ⟨h1, h2, h3⟩ := h
          subst h1; subst h3
          have hbp : amBadPair p l' r' = false := by
            simp [amBadPair, i4 hk.1, j4 hk.2]
          refine ⟨by simp [amGood, hbp, i1, j1], ?_, by simp [isPsym], fun _ => by simp [isPsum]⟩
          intro x hx
          simp only [List.mem_singleton] at hx
          subst hx
          exact ⟨by simp [amGood, hbp, i1, j1], by simp [isPsum]⟩
        · rw [if_neg hk] at h
          simp only [Option.some.injEq, Prod.mk.injEq] at h
          obtain ⟨h1, h2, h3⟩ := h
          have hexps : ∀ x ∈ (if lk = XKind.GROUP then res else les).flatMap
              (fun e => (if lk = XKind.GROUP then les else res).map (fun g => Aexpr.prod e g)),
              amGood p x = true ∧ isPsum p x = false := by
            intro x hx
            simp only [List.mem_flatMap, List.mem_map] at hx
            obtain ⟨e1, he1, g1, hg1, hx⟩ := hx
            subst hx
            by_cases hlk : lk = XKind.GROUP
            · rw [if_pos hlk] at he1
              rw [if_pos hlk] at hg1
              have hE := j2 e1 he1
              have hG := i2 g1 hg1
              have hbp : amBadPair p e1 g1 = false := by
                simp [amBadPair, hE.2, hG.2]
              exact ⟨by simp [amGood, hbp, hE.1, hG.1], by simp [isPsum]⟩
            · rw [if_neg hlk] at he1
              rw [if_neg hlk] at hg1
              have hE := i2 e1 he1
              have hG := j2 g1 hg1
              have hbp : amBadPair p e1 g1 = false := by
                simp [amBadPair, hE.2, hG.2]
              exact ⟨by simp [amGood, hbp, hE.1, hG.1], by simp [isPsum]⟩
          subst h1; subst h3
          refine ⟨?_, hexps, fun hps => (h2 ▸ rfl), ?_⟩
          · exact amGood_mkSum p _ (fun x hx => (hexps x hx).1)
          · intro hG
            rw [← h2] at hG
            exact absurd hG (by simp)

/-- Common concrete extractor setting used below: loop dims `i, j`, both
domain dims, and an `lda` derived from the symbol ranks. -/
def exInfo : MetaInfo := ⟨["i", "j"], ["i", "j"], []⟩

/-- Loop-dependence map derived from symbol ranks (spec §4.1). -/
def exLda : SymName → List String → Finset String :=
  fun _ r => (["i", "j"].filter (fun d => d ∈ r)).toFinset

/-- `A[i] * B[i]`: a subtree depending on loop `i` only. -/
def exL : Aexpr := .prod (.sym (.name "A") ["i"]) (.sym (.name "B") ["i"])

/-- `C[i] * D[i,j]`: a subtree depending on loops `i` and `j`. -/
def exR : Aexpr := .prod (.sym (.name "C") ["i"]) (.sym (.name "D") ["i", "j"])

/-- C1, counterexample.  At `(A[i]*B[i]) * (C[i]*D[i,j])` in mode `normal`
both children classify `EXT` and their dependency sets are in strict
subset relation (`{i} ⊂ {i,j}`), yet the extractor records the child with
the *smaller* (subset) dependency set, `A[i]*B[i]`, and not the richer
child `C[i]*D[i,j]` — refuting the claim that the richer side is tried,
and with it any subtree-size tie-break between the two sides. -/
theorem c1_counterexample :
    extExtract .normal false exInfo exLda exL [] = some (({"i"}, .EXT), []) ∧
    extExtract .normal false exInfo exLda exR [] =
      some (({"i", "j"}, .EXT), []) ∧
    ({"i"} : Finset String) ⊂ {"i", "j"} ∧
    extractorRun .normal false exInfo exLda (.prod exL exR) =
      some [(["i"], [exL])] ∧
    exL ≠ exR := by
  refine ⟨by decide, by decide, by decide, by decide, by decide⟩

/-- C1 (amended): when both children are `EXT` with non-empty dependency
sets in strict subset relation — in either orientation — `_soft` (mode
`only_domain`) tries to extract the *richer* (superset) side, while
`_normal` and `_aggressive` try the *poorer* (subset) side; in all cases
a rejected extraction propagates the union of the two dependency sets
upward with kind `EXT`.  The first three conjuncts cover the
`dep_l ⊂ dep_r` branches, the last three the mirrored `dep_r ⊂ dep_l`
branches (where the richer dependency set sits on the left child).  No
subtree-size (node-count) tie-break exists in the extractor. -/
theorem c1_subset_try_sides (mode : EMode) (la : Bool) (info : MetaInfo)
    (left right : Aexpr) (depL depR : Finset String) (st : ExtMap)
    (hne : depL ≠ ∅) (hss : depL ⊂ depR) :
    (extSoft mode la info left right depL depR (depL ∪ depR) .EXT .EXT st =
      (let t := extTry mode la info right depR st
       if t.1 then ((depL ∪ depR, .STOP), t.2)
       else ((depL ∪ depR, .EXT), t.2))) ∧
    (extNormal mode la info left right depL depR (depL ∪ depR) .EXT .EXT st =
      (let t := extTry mode la info left depL st
       if t.1 then ((depL ∪ depR, .STOP), t.2)
       else ((depL ∪ depR, .EXT), t.2))) ∧
    (extAggr mode la info left right depL depR (depL ∪ depR) .EXT .EXT st =
      (let t := extTry mode la info left depL st
       if t.1 then ((depL ∪ depR, .STOP), t.2)
       else ((depL ∪ depR, .EXT), t.2))) ∧
    (extSoft mode la info left right depR depL (depR ∪ depL) .EXT .EXT st =
      (let t := extTry mode la info left depR st
       if t.1 then ((depR ∪ depL, .STOP), t.2)
       else ((depR ∪ depL, .EXT), t.2))) ∧
    (extNormal mode la info left right depR depL (depR ∪ depL) .EXT .EXT st =
      (let t := extTry mode la info right depL st
       if t.1 then ((depR ∪ depL, .STOP), t.2)
       else ((depR ∪ depL, .EXT), t.2))) ∧
    (extAggr mode la info left right depR depL (depR ∪ depL) .EXT .EXT st =
      (let t := extTry mode la info right depL st
       if t.1 then ((depR ∪ depL, .STOP), t.2)
       else ((depR ∪ depL, .EXT), t.2))) := by
  have hsub : depL ⊆ depR := hss.subset
  have hne2 : depL ≠ depR := hss.ne
  have hR : depR ≠ ∅ := by
    intro hc
    exact hne (Finset.subset_empty.mp (hc ▸ hsub))
  have hns : ¬depR ⊆ depL := fun hc => hne2 (Finset.Subset.antisymm hsub hc)
  refine ⟨?_, ?_, ?_, ?_, ?_, ?_⟩
  · rw [extSoft, if_pos ⟨rfl, rfl⟩, if_neg hne2, if_pos hsub]
  · rw [extNormal, if_pos ⟨rfl, rfl⟩, if_neg hne2, if_neg hne, if_neg hR,
      if_pos hsub]
  · rw [extAggr, if_pos ⟨rfl, rfl⟩, if_neg hne2, if_neg hne, if_neg hR,
      if_pos hsub]
  · rw [extSoft, if_pos ⟨rfl, rfl⟩, if_neg (Ne.symm hne2), if_neg hns,
      if_pos hsub]
  · rw [extNormal, if_pos ⟨rfl, rfl⟩, if_neg (Ne.symm hne2), if_neg hR,
      if_neg hne, if_neg hns, if_pos hsub]
  · rw [extAggr, if_pos ⟨rfl, rfl⟩, if_neg (Ne.symm hne2), if_neg hR,
      if_neg hne, if_neg hns, if_pos hsub]

/-- Witness for `c1_subset_try_sides` at a concrete input. -/
theorem c1_subset_try_sides_witness :
    (extSoft .normal false exInfo exL exR {"i"} {"i", "j"}
        ({"i"} ∪ {"i", "j"}) .EXT .EXT [] =
      (let t := extTry .normal false exInfo exR {"i", "j"} []
       if t.1 then (({"i"} ∪ {"i", "j"}, .STOP), t.2)
       else (({"i"} ∪ {"i", "j"}, .EXT), t.2))) ∧
    (extNormal .normal false exInfo exL exR {"i"} {"i", "j"}
        ({"i"} ∪ {"i", "j"}) .EXT .EXT [] =
      (let t := extTry .normal false exInfo exL {"i"} []
       if t.1 then (({"i"} ∪ {"i", "j"}, .STOP), t.2)
       else (({"i"} ∪ {"i", "j"}, .EXT), t.2))) ∧
    (extAggr .normal false exInfo exL exR {"i"} {"i", "j"}
        ({"i"} ∪ {"i", "j"}) .EXT .EXT [] =
      (let t := extTry .normal false exInfo exL {"i"} []
       if t.1 then (({"i"} ∪ {"i", "j"}, .STOP), t.2)
       else (({"i"} ∪ {"i", "j"}, .EXT), t.2))) ∧
    (extSoft .normal false exInfo exL exR {"i", "j"} {"i"}
        ({"i", "j"} ∪ {"i"}) .EXT .EXT [] =
      (let t := extTry .normal false exInfo exL {"i", "j"} []
       if t.1 then (({"i", "j"} ∪ {"i"}, .STOP), t.2)
       else (({"i", "j"} ∪ {"i"}, .EXT), t.2))) ∧
    (extNormal .normal false exInfo exL exR {"i", "j"} {"i"}
        ({"i", "j"} ∪ {"i"}) .EXT .EXT [] =
      (let t := extTry .normal false exInfo exR {"i"} []
       if t.1 then (({"i", "j"} ∪ {"i"}, .STOP), t.2)
       else (({"i", "j"} ∪ {"i"}, .EXT), t.2))) ∧
    (extAggr .normal false exInfo exL exR {"i", "j"} {"i"}
        ({"i", "j"} ∪ {"i"}) .EXT .EXT [] =
      (let t := extTry .normal false exInfo exR {"i"} []
       if t.1 then (({"i", "j"} ∪ {"i"}, .STOP), t.2)
       else (({"i", "j"} ∪ {"i"}, .EXT), t.2))) :=
  c1_subset_try_sides .normal false exInfo exL exR {"i"} {"i", "j"} []
    (by decide) (by decide)

/-- C3 (amended): after the expansion rewriting driven by `should_expand`,
no product `Prod(Sum(a,b), g)` or `Prod(g, Sum(a,b))` remains in which
`g`, `a` and `b` are all symbols satisfying `should_expand`. -/
theorem c3_expand_no_psum_prod (p : SymName → List String → Bool)
    (e : Aexpr) (es : List Aexpr) (k : XKind) (t' : Aexpr)
    (h : expandX p e = some (es, k, t')) : amGood p t' = true :=
  (expandX_inv p e es k t' h).1

/-- The `should_expand` predicate that holds exactly at symbol `g`. -/
def exP3 : SymName → List String → Bool := fun n _ => decide (n = .name "g")

/-- `(a + b) * g` with `a`, `b` not expandable and `g` expandable. -/
def exE3 : Aexpr :=
  .prod (.sum (.sym (.name "a") []) (.sym (.name "b") [])) (.sym (.name "g") [])

/-- `g * (a + b)`: what the expander produces from `exE3`. -/
def exT3 : Aexpr :=
  .prod (.sym (.name "g") []) (.sum (.sym (.name "a") []) (.sym (.name "b") []))

/-- C3, counterexample.  Expanding `(a+b) * g` where only `g` satisfies
`should_expand` yields the tree `g * (a+b)`: a product of a `Sum` with a
`should_expand` symbol remains after expansion, refuting the claim's
literal invariant (checked by `claimGood`). -/
theorem c3_counterexample :
    expandX exP3 exE3 = some ([exT3], .EXPAND, exT3) ∧
    exP3 (.name "g") [] = true ∧
    claimGood exP3 exT3 = false := by
  refine ⟨by decide, by decide, by decide⟩

/-- The all-true `should_expand` predicate. -/
def exPall : SymName → List String → Bool := fun _ _ => true

/-- Witness for `c3_expand_no_psum_prod` at a concrete input. -/
theorem c3_expand_no_psum_prod_witness :
    amGood exPall
      (.sum (.prod (.sym (.name "a") []) (.sym (.name "g") []))
        (.prod (.sym (.name "b") []) (.sym (.name "g") []))) = true :=
  c3_expand_no_psum_prod exPall
    (.prod (.sum (.sym (.name "a") []) (.sym (.name "b") []))
      (.sym (.name "g") []))
    [.prod (.sym (.name "a") []) (.sym (.name "g") []),
     .prod (.sym (.name "b") []) (.sym (.name "g") [])]
    .EXPAND
    (.sum (.prod (.sym (.name "a") []) (.sym (.name "g") []))
      (.prod (.sym (.name "b") []) (.sym (.name "g") [])))
    (by decide)

/-- C8: for every mode, `licm` with `look_ahead=True` returns the ordered
classification map and leaves the statement AST, the hoisted registry and
the expression graph untouched (only the extractor round counter moves). -/
theorem c8_look_ahead_pure (mode : EMode) (info : MetaInfo)
    (lda : SymName → List String → Finset String) (st : RewState)
    (m : ExtMap) (st' : RewState)
    (h : licmLookAhead mode info lda st = some (m, st')) :
    st'.rvalue = st.rvalue ∧ st'.hoisted = st.hoisted ∧
    st'.graphEdges = st.graphEdges ∧
    some m = extractorRun mode true info lda st.rvalue := by
  unfold licmLookAhead at h
  cases hx : extExtract mode true info lda st.rvalue [] with
  | none => rw [hx] at h; exact absurd h (by simp)
  | some r =>
    rw [hx] at h
    simp only [Option.map_some', Option.some.injEq, Prod.mk.injEq] at h
    obtain ⟨h1, h2⟩ := h
    rw [← h2]
    refine ⟨rfl, rfl, rfl, ?_⟩
    rw [extractorRun, hx, Option.map_some', h1]

/-- A concrete rewriter state for the look-ahead witness. -/
def exSt8 : RewState :=
  ⟨.prod (.sym (.name "A") ["i"]) (.sym (.name "B") ["i"]),
   [("t", .sym (.name "A") ["i"])], [(.name "t", .name "A")], 0⟩

/-- Witness for `c8_look_ahead_pure` at a concrete input. -/
theorem c8_look_ahead_pure_witness :
    ({ exSt8 with counter := 1 } : RewState).rvalue = exSt8.rvalue ∧
    ({ exSt8 with counter := 1 } : RewState).hoisted = exSt8.hoisted ∧
    ({ exSt8 with counter := 1 } : RewState).graphEdges = exSt8.graphEdges ∧
    some ([] : ExtMap) = extractorRun .normal true exInfo exLda exSt8.rvalue :=
  c8_look_ahead_pure .normal exInfo exLda exSt8 [] { exSt8 with counter := 1 }
    (by decide)

/-- Multiplicity of `x` in `xs`. -/
def countOcc (xs : List (List String)) (x : List String) : Nat :=
  (xs.filter (fun y => y = x)).length

/-- `Counter(occurrences).most_common(1)[0][0]`, modelled deterministically
as the first element (in first-occurrence order) of maximal multiplicity.
(`most_common` tie order is unspecified under Python 2 dicts; nothing
below depends on ties.) -/
def mostCommon (xs : List (List String)) : Option (List String) :=
  xs.foldl
    (fun acc x =>
      match acc with
      | none => some x
      | some b => if countOcc xs b < countOcc xs x then some x else acc)
    none

/-- The per-symbol occurrence tuples over a counting basis:
`[tuple(r for r in s.rank if r in dims) for s in symbols]` with empty
tuples dropped. -/
def stdOccs (basis : List String) (symbols : List (SymName × List String)) :
    List (List String) :=
  (symbols.map (fun s => s.2.filter (fun x => x ∈ basis))).filter
    (fun t => t ≠ [])

/-- The `mode == 'standard'` dimension choice of
`ExpressionRewriter.expand` (rewriter.py lines 173-187): the counting
basis is `out_domain_dims` unless that is empty or the expression has at
least two domain loops (`expr_info.dimension >= 2`; `dimension` is the
number of domain loops per spec §3), in which case it is `domain_dims`;
`none` models the early `return self` when no occurrence remains. -/
def chooseStandardDim (domainDims outDomainDims : List String)
    (symbols : List (SymName × List String)) : Option (List String) :=
  let dims := if outDomainDims = [] ∨ 2 ≤ domainDims.length
    then domainDims else outDomainDims
  let occurrences := stdOccs dims symbols
  if occurrences = [] then none else mostCommon occurrences

/-- The dimension choice in the words of claim C2: domain dims are the
counting basis, and out-of-domain dims are used only when no domain dim
occurs among the symbols. -/
def standardDimOfClaim (domainDims outDomainDims : List String)
    (symbols : List (SymName × List String)) : Option (List String) :=
  let dims := if symbols.all (fun s => s.2.filter (fun x => x ∈ domainDims) = [])
    then outDomainDims else domainDims
  let occurrences := stdOccs dims symbols
  if occurrences = [] then none else mostCommon occurrences

theorem mostCommon_argmax_aux (L : List (List String)) :
    ∀ (ys : List (List String)) (acc : Option (List String)),
      (∀ b, acc = some b → b ∈ L) → (∀ y ∈ ys, y ∈ L) →
      ∀ d,
        ys.foldl
          (fun acc x =>
            match acc with
            | none => some x
            | some b => if countOcc L b < countOcc L x then some x else acc)
          acc = some d →
        d ∈ L ∧ (∀ t ∈ ys, countOcc L t ≤ countOcc L d) ∧
          (∀ b, acc = some b → countOcc L b ≤ countOcc L d) := by
  intro ys
  induction ys with
  | nil =>
    intro acc hacc _ d h
    simp only [List.foldl_nil] at h
    exact ⟨hacc d h, by simp, fun b hb => by rw [hb] at h; cases h; exact le_refl _⟩
  | cons y ys ih =>
    intro acc hacc hmem d h
    simp only [List.foldl_cons] at h
    cases acc with
    | none =>
      obtain ⟨hd, hys, hacc'⟩ := ih (some y)
        (fun b hb => by cases hb; exact hmem y (by simp))
        (fun z hz => hmem z (by simp [hz])) d h
      refine ⟨hd, ?_, by simp⟩
      intro t ht
      rcases List.mem_cons.mp ht with ht | ht
      · exact ht ▸ hacc' y rfl
      · exact hys t ht
    | some b =>
      dsimp only at h
      by_cases hgt : countOcc L b < countOcc L y
      · rw [if_pos hgt] at h
        obtain ⟨hd, hys, hacc'⟩ := ih (some y)
          (fun c hc => by cases hc; exact hmem y (by simp))
          (fun z hz => hmem z (by simp [hz])) d h
        refine ⟨hd, ?_, ?_⟩
        · intro t ht
          rcases List.mem_cons.mp ht with ht | ht
          · exact ht ▸ hacc' y rfl
          · exact hys t ht
        · intro c hc
          cases hc
          exact le_trans (le_of_lt hgt) (hacc' y rfl)
      · rw [if_neg hgt] at h
        obtain ⟨hd, hys, hacc'⟩ := ih (some b) hacc
          (fun z hz => hmem z (by simp [hz])) d h
        refine ⟨hd, ?_, hacc'⟩
        intro t ht
        rcases List.mem_cons.mp ht with ht | ht
        · exact ht ▸ le_trans (Nat.le_of_not_lt hgt) (hacc' b rfl)
        · exact hys t ht

theorem mostCommon_max (xs : List (List String)) (d : List String)
    (h : mostCommon xs = some d) :
    d ∈ xs ∧ ∀ t ∈ xs, countOcc xs t ≤ countOcc xs d := by
  obtain ⟨h1, h2, _⟩ := mostCommon_argmax_aux xs xs none (by simp)
    (fun _ hy => hy) d h
  exact ⟨h1, h2⟩

/-- C2 (amended): with at most one domain loop and a non-empty set of
out-of-domain dims, `expand('standard')` counts occurrence tuples over the
*out-of-domain* dims (not the domain dims); the chosen expansion dimension
is an occurring tuple of maximal multiplicity, and `none` (statement left
unchanged) results exactly when no out-of-domain dim occurs in any symbol
rank. -/
theorem c2_standard_dim (dd od : List String)
    (syms : List (SymName × List String))
    (hod : od ≠ []) (hdim : dd.length < 2) (d : List String)
    (h : chooseStandardDim dd od syms = some d) :
    d ∈ stdOccs od syms ∧
      ∀ t ∈ stdOccs od syms,
        countOcc (stdOccs od syms) t ≤ countOcc (stdOccs od syms) d := by
  rw [chooseStandardDim] at h
  simp only [if_neg (show ¬(od = [] ∨ 2 ≤ dd.length) by
    push_neg
    exact ⟨hod, hdim⟩)] at h
  by_cases hocc : stdOccs od syms = []
  · rw [if_pos hocc] at h
    exact absurd h (by simp)
  · rw [if_neg hocc] at h
    exact mostCommon_max _ d h

/-- Symbols of `A[i] + B[i] + C[q]` in visit order, as (name, rank). -/
def exSyms2 : List (SymName × List String) :=
  [(.name "A", ["i"]), (.name "B", ["i"]), (.name "C", ["q"])]

/-- C2, counterexample.  With one domain loop `i` and out-of-domain loop
`q`, over symbols `A[i], B[i], C[q]` (where the domain dim `i` clearly
occurs) the source picks dimension `(q,)` because the counting basis is
`out_domain_dims` whenever `dimension < 2` and out-domain dims exist; the
claim's algorithm (domain basis with fallback only if no domain dim
occurs) picks `(i,)`. -/
theorem c2_counterexample :
    chooseStandardDim ["i"] ["q"] exSyms2 = some ["q"] ∧
    standardDimOfClaim ["i"] ["q"] exSyms2 = some ["i"] ∧
    exSyms2.all (fun s => s.2.filter (fun x => x ∈ ["i"]) = []) = false ∧
    (["q"] : List String) ≠ ["i"] := by
  refine ⟨by decide, by decide, by decide, by decide⟩

/-- Witness for `c2_standard_dim` at a concrete input. -/
theorem c2_standard_dim_witness :
    ["q"] ∈ stdOccs ["q"] exSyms2 ∧
      ∀ t ∈ stdOccs ["q"] exSyms2,
        countOcc (stdOccs ["q"] exSyms2) t ≤
          countOcc (stdOccs ["q"] exSyms2) ["q"] :=
  c2_standard_dim ["i"] ["q"] exSyms2 (by decide) (by decide) ["q"] (by decide)

/-- The directed dependency graph of `optimizer.py`'s `ExpressionGraph`
(`self.deps = nx.DiGraph()` over symbol values). -/
structure DepGraph where
  nodes : Finset SymName
  edges : Finset (SymName × SymName)
deriving DecidableEq

/-- `nx.DiGraph.add_edge`: inserts both endpoints and the edge. -/
def addEdge (g : DepGraph) (a b : SymName) : DepGraph :=
  ⟨insert a (insert b g.nodes), insert (a, b) g.edges⟩

/-- `extract_syms` inside `ExpressionGraph.add_dependency` (optimizer.py):
add an edge from `s` to the `symbol` of every `Symbol` node in the
expression, recursing through children in order. -/
def extractSyms (s : SymName) : Aexpr → DepGraph → DepGraph
  | .sym n _, g => addEdge g s n
  | .sum l r, g => extractSyms s r (extractSyms s l g)
  | .sub l r, g => extractSyms s r (extractSyms s l g)
  | .prod l r, g => extractSyms s r (extractSyms s l g)
  | .div l r, g => extractSyms s r (extractSyms s l g)
  | .par c, g => extractSyms s c g
  | .neg c, g => extractSyms s c g

/-- `ExpressionGraph.add_dependency(sym, expr, self_loop)` (optimizer.py
lines 1046-1062): the self-edge is added iff the caller-supplied
`self_loop` flag is set; then the symbol edges of `expr` are added. -/
def addDependency (g : DepGraph) (s : SymName) (expr : Aexpr)
    (selfLoop : Bool) : DepGraph :=
  let g1 := if selfLoop then addEdge g s s else g
  extractSyms s expr g1

/-- The outgoing edges of `s` in `g`. -/
def outEdges (g : DepGraph) (s : SymName) : Finset (SymName × SymName) :=
  g.edges.filter (fun e => e.1 = s)

/-- The set of symbol values occurring in an expression. -/
def symValues : Aexpr → Finset SymName
  | .sym n _ => {n}
  | .sum l r => symValues l ∪ symValues r
  | .sub l r => symValues l ∪ symValues r
  | .prod l r => symValues l ∪ symValues r
  | .div l r => symValues l ∪ symValues r
  | .par c => symValues c
  | .neg c => symValues c

theorem extractSyms_edges (s : SymName) :
    ∀ (e : Aexpr) (g : DepGraph),
      (extractSyms s e g).edges =
        g.edges ∪ (symValues e).image (fun t => (s, t)) := by
  intro e
  induction e with
  | sym n r =>
    intro g
    simp [extractSyms, addEdge, symValues, Finset.insert_eq, Finset.union_comm]
  | sum l r ihl ihr =>
    intro g
    simp [extractSyms, ihl, ihr, symValues, Finset.image_union, Finset.union_assoc]
  | sub l r ihl ihr =>
    intro g
    simp [extractSyms, ihl, ihr, symValues, Finset.image_union, Finset.union_assoc]
  | prod l r ihl ihr =>
    intro g
    simp [extractSyms, ihl, ihr, symValues, Finset.image_union, Finset.union_assoc]
  | div l r ihl ihr =>
    intro g
    simp [extractSyms, ihl, ihr, symValues, Finset.image_union, Finset.union_assoc]
  | par c ih =>
    intro g
    simp [extractSyms, ih, symValues]
  | neg c ih =>
    intro g
    simp [extractSyms, ih, symValues]

/-- C4 (amended): `add_dependency(sym, expr, self_loop)` adds an edge from
`sym` to every symbol occurring in `expr`, plus a self-edge exactly when
the caller-supplied `self_loop` flag is set; whether `sym` already has
outgoing edges is never consulted. -/
theorem c4_add_dependency_edges (g : DepGraph) (s : SymName) (e : Aexpr)
    (sl : Bool) :
    (addDependency g s e sl).edges =
      (if sl then insert (s, s) g.edges else g.edges) ∪
        (symValues e).image (fun t => (s, t)) := by
  rw [addDependency]
  cases sl with
  | false => simp [extractSyms_edges]
  | true => simp [extractSyms_edges, addEdge]

/-- A graph in which `t` already has an outgoing edge (`t → a`). -/
def exG4 : DepGraph := addEdge ⟨∅, ∅⟩ (.name "t") (.name "a")

/-- C4, counterexample.  With `t → a` already present (so `t` is being
re-assigned in the claim's sense) a call with `self_loop=False` adds *no*
self-edge, and on a fresh graph (no outgoing edges) a call with
`self_loop=True` *does* add one: the self-edge tracks the extra
caller-supplied argument, not the presence of outgoing edges. -/
theorem c4_counterexample :
    outEdges exG4 (.name "t") ≠ ∅ ∧
    ((.name "t", .name "t") : SymName × SymName) ∉
      (addDependency exG4 (.name "t") (.sym (.name "b") []) false).edges ∧
    outEdges (⟨∅, ∅⟩ : DepGraph) (.name "t") = ∅ ∧
    ((.name "t", .name "t") : SymName × SymName) ∈
      (addDependency (⟨∅, ∅⟩ : DepGraph) (.name "t")
        (.sym (.name "b") []) true).edges := by
  refine ⟨by decide, by decide, by decide, by decide⟩

/-- Python `str.isdigit`: non-empty and all characters are digits. -/
def isDigitStr (s : String) : Bool := !s.isEmpty && s.all Char.isDigit

/-- The numeric value of a digit string. -/
def digitVal (s : String) : ℚ := ((s.toNat?.getD 0 : ℕ) : ℚ)

/-- `ExpressionRewriter.replacediv` (rewriter.py lines 350-364) as one
bottom-up pass: every `Div` whose right child is a `Symbol` is rewritten —
a numeric literal `d` into `Prod(x, 1.0/d)`, a digit-string `d` into
`Prod(x, 1.0/float(d))`, and any other symbol `d` into
`Prod(x, Div(1.0, d))`; a `Div` whose right child is *not* a `Symbol` is
left in place (its children are still rewritten).  The source collects all
`Div` nodes with `FindInstances` and applies `ast_replace` (both outside
the provided sources, modelled from the spec) as a simultaneous rewrite;
the introduced `Div(1.0, d)` is not itself rewritten, matching the source
(only pre-existing `Div`s are in `to_replace`).  Python raises
`ZeroDivisionError` on a zero literal divisor; the field `1/0 = 0`
convention stands in for that case. -/
def replacediv : Aexpr → Aexpr
  | .div l (.sym (.num q) _) =>
    .prod (replacediv l) (.sym (.num (1 / q)) [])
  | .div l (.sym (.name s) rk) =>
    if isDigitStr s then .prod (replacediv l) (.sym (.num (1 / digitVal s)) [])
    else .prod (replacediv l) (.div (.sym (.num 1) []) (.sym (.name s) rk))
  | .div l r => .div (replacediv l) (replacediv r)
  | .sym n r => .sym n r
  | .sum l r => .sum (replacediv l) (replacediv r)
  | .sub l r => .sub (replacediv l) (replacediv r)
  | .prod l r => .prod (replacediv l) (replacediv r)
  | .par c => .par (replacediv c)
  | .neg c => .neg (replacediv c)

/-- `x` is a `Symbol` node. -/
def isSymNode : Aexpr → Bool
  | .sym _ _ => true
  | _ => false

/-- `x` is a symbol that `replacediv` treats as numeric: an `int`/`float`
literal or a digit string. -/
def isNumericSym : Aexpr → Bool
  | .sym (.num _) _ => true
  | .sym (.name s) _ => isDigitStr s
  | _ => false

/-- Every `Div` subterm either has a non-`Symbol` divisor, or is an
introduced reciprocal `Div(1.0, d)` with a non-numeric symbol divisor. -/
def divInvariant : Aexpr → Bool
  | .sym _ _ => true
  | .sum l r => divInvariant l && divInvariant r
  | .sub l r => divInvariant l && divInvariant r
  | .prod l r => divInvariant l && divInvariant r
  | .par c => divInvariant c
  | .neg c => divInvariant c
  | .div l r =>
    divInvariant l && divInvariant r &&
      (if isSymNode r then decide (l = .sym (.num 1) []) && !isNumericSym r
       else true)

theorem replacediv_not_sym :
    ∀ r : Aexpr, isSymNode r = false → isSymNode (replacediv r) = false := by
  intro r h
  cases r with
  | sym n rk => simp [isSymNode] at h
  | sum l r => simp [replacediv, isSymNode]
  | sub l r => simp [replacediv, isSymNode]
  | prod l r => simp [replacediv, isSymNode]
  | par c => simp [replacediv, isSymNode]
  | neg c => simp [replacediv, isSymNode]
  | div l rr =>
    cases rr with
    | sym n rk =>
      cases n with
      | num q => simp [replacediv, isSymNode]
      | name s => by_cases hd : isDigitStr s <;> simp [replacediv, hd, isSymNode]
    | sum a b => simp [replacediv, isSymNode]
    | sub a b => simp [replacediv, isSymNode]
    | prod a b => simp [replacediv, isSymNode]
    | div a b => simp [replacediv, isSymNode]
    | par a => simp [replacediv, isSymNode]
    | neg a => simp [replacediv, isSymNode]

/-- C5 (amended): after `replacediv`, every division whose divisor is a
`Symbol` has been rewritten — so no division by a numeric literal (or
digit-string) symbol remains, and the only divisions with a symbol divisor
left are the introduced reciprocals `Div(1.0, d)` with `d` non-numeric;
divisions whose divisor is not a `Symbol` are left in their original form
(children still rewritten). -/
theorem c5_replacediv_invariant (e : Aexpr) :
    divInvariant (replacediv e) = true := by
  induction e with
  | sym n r => rfl
  | sum l r ihl ihr => simp [replacediv, divInvariant, ihl, ihr]
  | sub l r ihl ihr => simp [replacediv, divInvariant, ihl, ihr]
  | prod l r ihl ihr => simp [replacediv, divInvariant, ihl, ihr]
  | par c ih => simp [replacediv, divInvariant, ih]
  | neg c ih => simp [replacediv, divInvariant, ih]
  | div l r ihl ihr =>
    cases r with
    | sym n rk =>
      cases n with
      | num q => simp [replacediv, divInvariant, ihl, isSymNode]
      | name s =>
        by_cases hd : isDigitStr s
        · simp [replacediv, hd, divInvariant, ihl, isSymNode]
        · simp [replacediv, hd, divInvariant, ihl, isSymNode, isNumericSym]
    | sum a b =>
      have hns := replacediv_not_sym (Aexpr.sum a b) (by simp [isSymNode])
      have h1 : replacediv (Aexpr.div l (Aexpr.sum a b)) =
          Aexpr.div (replacediv l) (replacediv (Aexpr.sum a b)) := rfl
      rw [h1]
      generalize hY : replacediv (Aexpr.sum a b) = Y at ihr hns
      simp [divInvariant, ihl, ihr, hns]
    | sub a b =>
      have hns := replacediv_not_sym (Aexpr.sub a b) (by simp [isSymNode])
      have h1 : replacediv (Aexpr.div l (Aexpr.sub a b)) =
          Aexpr.div (replacediv l) (replacediv (Aexpr.sub a b)) := rfl
      rw [h1]
      generalize hY : replacediv (Aexpr.sub a b) = Y at ihr hns
      simp [divInvariant, ihl, ihr, hns]
    | prod a b =>
      have hns := replacediv_not_sym (Aexpr.prod a b) (by simp [isSymNode])
      have h1 : replacediv (Aexpr.div l (Aexpr.prod a b)) =
          Aexpr.div (replacediv l) (replacediv (Aexpr.prod a b)) := rfl
      rw [h1]
      generalize hY : replacediv (Aexpr.prod a b) = Y at ihr hns
      simp [divInvariant, ihl, ihr, hns]
    | div a b =>
      have hns := replacediv_not_sym (Aexpr.div a b) (by simp [isSymNode])
      have h1 : replacediv (Aexpr.div l (Aexpr.div a b)) =
          Aexpr.div (replacediv l) (replacediv (Aexpr.div a b)) := rfl
      rw [h1]
      generalize hY : replacediv (Aexpr.div a b) = Y at ihr hns
      simp [divInvariant, ihl, ihr, hns]
    | par a =>
      have hns := replacediv_not_sym (Aexpr.par a) (by simp [isSymNode])
      have h1 : replacediv (Aexpr.div l (Aexpr.par a)) =
          Aexpr.div (replacediv l) (replacediv (Aexpr.par a)) := rfl
      rw [h1]
      generalize hY : replacediv (Aexpr.par a) = Y at ihr hns
      simp [divInvariant, ihl, ihr, hns]
    | neg a =>
      have hns := replacediv_not_sym (Aexpr.neg a) (by simp [isSymNode])
      have h1 : replacediv (Aexpr.div l (Aexpr.neg a)) =
          Aexpr.div (replacediv l) (replacediv (Aexpr.neg a)) := rfl
      rw [h1]
      generalize hY : replacediv (Aexpr.neg a) = Y at ihr hns
      simp [divInvariant, ihl, ihr, hns]

/-- `x / (a + b)`: a division by a non-`Symbol` divisor. -/
def exE5 : Aexpr :=
  .div (.sym (.name "x") [])
    (.sum (.sym (.name "a") []) (.sym (.name "b") []))

/-- C5, counterexample.  `replacediv` leaves `x / (a + b)` exactly in its
original form — it rewrites only divisions whose divisor is a `Symbol` —
refuting the claim that *every* division is rewritten and that
`Div(x, d)` with non-literal `d` becomes `Prod(x, Div(1, d))`. -/
theorem c5_counterexample :
    replacediv exE5 = exE5 ∧
    isSymNode (.sum (.sym (.name "a") []) (.sym (.name "b") [])) = false ∧
    replacediv exE5 ≠
      .prod (.sym (.name "x") [])
        (.div (.sym (.num 1) [])
          (.sum (.sym (.name "a") []) (.sym (.name "b") []))) := by
  refine ⟨by decide, by decide, by decide⟩

/-- `x` is a `Prod` node. -/
def isProdNode : Aexpr → Bool
  | .prod _ _ => true
  | _ => false

/-- One stable-insertion step of Python's stable ascending sort by key. -/
def insortKey {κ : Type} [LinearOrder κ] (key : Aexpr → κ) (x : Aexpr) :
    List Aexpr → List Aexpr
  | [] => [x]
  | y :: ys => if key x ≤ key y then x :: y :: ys else y :: insortKey key x ys

/-- Python `sorted(symbols, key=reorder)`: a stable ascending sort. -/
def sortByKey {κ : Type} [LinearOrder κ] (key : Aexpr → κ) :
    List Aexpr → List Aexpr
  | [] => []
  | x :: xs => insortKey key x (sortByKey key xs)

/-- `ast_make_expr(Prod, children, balance=False)`.  Modelled from the
spec: the left-nested product chain of a non-empty list. -/
def mkProdChain : List Aexpr → Aexpr
  | [] => .sym (.num 1) []
  | x :: xs => xs.foldl .prod x

mutual
/-- `ExpressionRewriter.reassociate._reassociate` as a pure function:
`Symbol` and `Div` nodes are left alone, `Par` recurses into its child,
`Sum`/`Sub` (and `FunCall`) recurse into their children, and a `Prod` has
its operator chain flattened (`explore_operator`, outside the provided
sources, modelled as the flatten of nested `Prod`s), the non-`Symbol`
chain operands reassociated, and the chain rebuilt with the non-`Symbol`
operands first, followed by the `Symbol`s sorted by `key`.  Any other
node (e.g. `Neg`) only triggers a warning and is left unchanged. -/
def reassociate {κ : Type} [LinearOrder κ] (key : Aexpr → κ) : Aexpr → Aexpr
  | .par c => .par (reassociate key c)
  | .sum l r => .sum (reassociate key l) (reassociate key r)
  | .sub l r => .sub (reassociate key l) (reassociate key r)
  | .prod l r =>
    let ch := prodChain key l ++ prodChain key r
    let others := (ch.filter (fun x => !x.1)).map (fun x => x.2)
    let symbols := (ch.filter (fun x => x.1)).map (fun x => x.2)
    mkProdChain (others ++ sortByKey key symbols)
  | .sym n r => .sym n r
  | .div l r => .div l r
  | .neg c => .neg c
termination_by e => (sizeOf e, 0)

/-- The `explore_operator` chain of a `Prod` tree, tagging each operand
with whether it is a `Symbol` (`true`) and reassociating the non-`Symbol`
operands in place, as `_reassociate` does before rebuilding. -/
def prodChain {κ : Type} [LinearOrder κ] (key : Aexpr → κ) :
    Aexpr → List (Bool × Aexpr)
  | .prod l r => prodChain key l ++ prodChain key r
  | .sym n r => [(true, .sym n r)]
  | .par c => [(false, reassociate key (.par c))]
  | .sum l r => [(false, reassociate key (.sum l r))]
  | .sub l r => [(false, reassociate key (.sub l r))]
  | .div l r => [(false, reassociate key (.div l r))]
  | .neg c => [(false, reassociate key (.neg c))]
termination_by e => (sizeOf e, 1)
end

theorem mem_insortKey {κ : Type} [LinearOrder κ] (key : Aexpr → κ)
    (x a : Aexpr) (l : List Aexpr) :
    a ∈ insortKey key x l ↔ a = x ∨ a ∈ l := by
  induction l with
  | nil => simp [insortKey]
  | cons y ys ih =>
    rw [insortKey]
    by_cases h : key x ≤ key y
    · rw [if_pos h]
      simp
    · rw [if_neg h]
      simp only [List.mem_cons, ih]
      tauto

theorem sorted_insortKey {κ : Type} [LinearOrder κ] (key : Aexpr → κ)
    (x : Aexpr) (l : List Aexpr)
    (h : l.Sorted (fun a b => key a ≤ key b)) :
    (insortKey key x l).Sorted (fun a b => key a ≤ key b) := by
  induction l with
  | nil => simp [insortKey]
  | cons y ys ih =>
    rw [List.sorted_cons] at h
    obtain ⟨hy, hys⟩ := h
    rw [insortKey]
    by_cases hxy : key x ≤ key y
    · rw [if_pos hxy, List.sorted_cons]
      refine ⟨?_, List.sorted_cons.mpr ⟨hy, hys⟩⟩
      intro b hb
      rcases List.mem_cons.mp hb with hb | hb
      · exact hb ▸ hxy
      · exact le_trans hxy (hy b hb)
    · rw [if_neg hxy, List.sorted_cons]
      refine ⟨?_, ih hys⟩
      intro b hb
      rcases (mem_insortKey key x b ys).mp hb with hb | hb
      · exact hb ▸ le_of_not_le hxy
      · exact hy b hb

theorem sorted_sortByKey {κ : Type} [LinearOrder κ] (key : Aexpr → κ)
    (l : List Aexpr) :
    (sortByKey key l).Sorted (fun a b => key a ≤ key b) := by
  induction l with
  | nil => simp [sortByKey]
  | cons x xs ih => exact sorted_insortKey key x _ ih

theorem insortKey_of_head_le {κ : Type} [LinearOrder κ] (key : Aexpr → κ)
    (x : Aexpr) (l : List Aexpr) (h : ∀ y ∈ l, key x ≤ key y) :
    insortKey key x l = x :: l := by
  cases l with
  | nil => rfl
  | cons y ys => rw [insortKey, if_pos (h y (by simp))]

theorem sortByKey_eq_self {κ : Type} [LinearOrder κ] (key : Aexpr → κ)
    (l : List Aexpr) (h : l.Sorted (fun a b => key a ≤ key b)) :
    sortByKey key l = l := by
  induction l with
  | nil => rfl
  | cons x xs ih =>
    rw [List.sorted_cons] at h
    rw [sortByKey, ih h.2, insortKey_of_head_le key x xs h.1]

theorem sortByKey_idem {κ : Type} [LinearOrder κ] (key : Aexpr → κ)
    (l : List Aexpr) :
    sortByKey key (sortByKey key l) = sortByKey key l :=
  sortByKey_eq_self key _ (sorted_sortByKey key l)

theorem prodChain_ne_nil {κ : Type} [LinearOrder κ] (key : Aexpr → κ) :
    ∀ e : Aexpr, prodChain key e ≠ [] := by
  intro e
  induction e with
  | prod l r ihl ihr =>
    rw [prodChain]
    intro h
    exact ihl (List.append_eq_nil.mp h).1
  | sym n r => simp [prodChain]
  | par c _ => simp [prodChain]
  | sum l r _ _ => simp [prodChain]
  | sub l r _ _ => simp [prodChain]
  | div l r _ _ => simp [prodChain]
  | neg c _ => simp [prodChain]

theorem foldl_prod_isProd (xs : List Aexpr) :
    ∀ a : Aexpr, xs ≠ [] → isProdNode (xs.foldl .prod a) = true := by
  induction xs with
  | nil => intro a h; exact absurd rfl h
  | cons y ys ih =>
    intro a _
    rw [List.foldl_cons]
    cases ys with
    | nil => simp [isProdNode]
    | cons z zs => exact ih (a.prod y) (by simp)

theorem prodChain_foldl {κ : Type} [LinearOrder κ] (key : Aexpr → κ)
    (xs : List Aexpr) : ∀ a : Aexpr,
      prodChain key (xs.foldl .prod a) =
        prodChain key a ++ xs.flatMap (fun x => prodChain key x) := by
  induction xs with
  | nil => intro a; simp
  | cons y ys ih =>
    intro a
    rw [List.foldl_cons, ih (a.prod y)]
    have hp : prodChain key (a.prod y) = prodChain key a ++ prodChain key y := by
      rw [prodChain]
    rw [hp, List.flatMap_cons, List.append_assoc]

theorem prodChain_single {κ : Type} [LinearOrder κ] (key : Aexpr → κ)
    (x : Aexpr) (hp : isProdNode x = false) (hfix : reassociate key x = x) :
    prodChain key x = [(isSymNode x, x)] := by
  cases x with
  | prod l r => simp [isProdNode] at hp
  | sym n r => simp [prodChain, isSymNode]
  | par c => simp [prodChain, isSymNode, hfix]
  | sum l r => simp [prodChain, isSymNode, hfix]
  | sub l r => simp [prodChain, isSymNode, hfix]
  | div l r => simp [prodChain, isSymNode, hfix]
  | neg c => simp [prodChain, isSymNode, hfix]

theorem flatMap_singles {α β : Type} (xs : List α) (f : α → List β) (g : α → β)
    (h : ∀ x ∈ xs, f x = [g x]) : xs.flatMap f = xs.map g := by
  induction xs with
  | nil => rfl
  | cons x xs ih =>
    rw [List.flatMap_cons, h x (by simp), List.map_cons, ih (fun y hy => h y (by simp [hy]))]
    rfl

theorem prodChain_mkProdChain {κ : Type} [LinearOrder κ] (key : Aexpr → κ)
    (ys : List Aexpr) (hne : ys ≠ [])
    (h : ∀ x ∈ ys, isProdNode x = false ∧ reassociate key x = x) :
    prodChain key (mkProdChain ys) = ys.map (fun x => (isSymNode x, x)) := by
  cases ys with
  | nil => exact absurd rfl hne
  | cons x xs =>
    rw [mkProdChain, prodChain_foldl,
      prodChain_single key x (h x (by simp)).1 (h x (by simp)).2,
      flatMap_singles xs (fun y => prodChain key y) (fun y => (isSymNode y, y))
        (fun y hy => prodChain_single key y (h y (by simp [hy])).1 (h y (by simp [hy])).2)]
    rfl

theorem chainTag_filter_not (ys : List Aexpr) :
    ((ys.map (fun x => (isSymNode x, x))).filter
        (fun bx => !bx.1)).map (fun bx => bx.2) =
      ys.filter (fun x => !isSymNode x) := by
  induction ys with
  | nil => rfl
  | cons x xs ih =>
    cases hx : isSymNode x <;>
      simp [List.filter_cons, hx, ih]

theorem chainTag_filter_yes (ys : List Aexpr) :
    ((ys.map (fun x => (isSymNode x, x))).filter
        (fun bx => bx.1)).map (fun bx => bx.2) =
      ys.filter (fun x => isSymNode x) := by
  induction ys with
  | nil => rfl
  | cons x xs ih =>
    cases hx : isSymNode x <;>
      simp [List.filter_cons, hx, ih]

theorem filter_tag_length (l : List (Bool × Aexpr)) :
    (l.filter (fun x => !x.1)).length + (l.filter (fun x => x.1)).length =
      l.length := by
  induction l with
  | nil => rfl
  | cons bx rest ih =>
    cases hb : bx.1 <;> simp [List.filter_cons, hb] <;> omega

theorem length_insortKey {κ : Type} [LinearOrder κ] (key : Aexpr → κ)
    (x : Aexpr) (l : List Aexpr) :
    (insortKey key x l).length = l.length + 1 := by
  induction l with
  | nil => rfl
  | cons y ys ih =>
    rw [insortKey]
    by_cases h : key x ≤ key y
    · rw [if_pos h]; rfl
    · rw [if_neg h]; simp [ih]

theorem length_sortByKey {κ : Type} [LinearOrder κ] (key : Aexpr → κ)
    (l : List Aexpr) : (sortByKey key l).length = l.length := by
  induction l with
  | nil => rfl
  | cons x xs ih => rw [sortByKey, length_insortKey, ih]; rfl

theorem mem_sortByKey {κ : Type} [LinearOrder κ] (key : Aexpr → κ)
    (a : Aexpr) (l : List Aexpr) : a ∈ sortByKey key l ↔ a ∈ l := by
  induction l with
  | nil => simp [sortByKey]
  | cons x xs ih =>
    rw [sortByKey, mem_insortKey]
    simp [ih]

theorem mkProdChain_isProd (ys : List Aexpr) (h : 2 ≤ ys.length) :
    isProdNode (mkProdChain ys) = true := by
  match ys with
  | [] => simp at h
  | [x] => simp at h
  | x :: y :: rest =>
    rw [mkProdChain]
    exact foldl_prod_isProd (y :: rest) x (by simp)

theorem rebuild_fixed {κ : Type} [LinearOrder κ] (key : Aexpr → κ)
    (others symbols : List Aexpr)
    (hO : ∀ x ∈ others,
      isSymNode x = false ∧ isProdNode x = false ∧ reassociate key x = x)
    (hS : ∀ x ∈ symbols,
      isSymNode x = true ∧ isProdNode x = false ∧ reassociate key x = x)
    (hlen : 2 ≤ others.length + symbols.length) :
    reassociate key (mkProdChain (others ++ sortByKey key symbols)) =
      mkProdChain (others ++ sortByKey key symbols) := by
  have hS' : ∀ x ∈ sortByKey key symbols,
      isSymNode x = true ∧ isProdNode x = false ∧ reassociate key x = x :=
    fun x hx => hS x ((mem_sortByKey key x symbols).mp hx)
  have hYs : ∀ x ∈ others ++ sortByKey key symbols,
      isProdNode x = false ∧ reassociate key x = x := by
    intro x hx
    rcases List.mem_append.mp hx with hx | hx
    · exact ⟨(hO x hx).2.1, (hO x hx).2.2⟩
    · exact ⟨(hS' x hx).2.1, (hS' x hx).2.2⟩
  have hlen2 : 2 ≤ (others ++ sortByKey key symbols).length := by
    rw [List.length_append, length_sortByKey]
    exact hlen
  have hne : others ++ sortByKey key symbols ≠ [] := by
    intro hc
    rw [hc] at hlen2
    simp at hlen2
  have hprod := mkProdChain_isProd _ hlen2
  cases hT : mkProdChain (others ++ sortByKey key symbols) with
  | sym n r => rw [hT] at hprod; simp [isProdNode] at hprod
  | sum a b => rw [hT] at hprod; simp [isProdNode] at hprod
  | sub a b => rw [hT] at hprod; simp [isProdNode] at hprod
  | div a b => rw [hT] at hprod; simp [isProdNode] at hprod
  | par a => rw [hT] at hprod; simp [isProdNode] at hprod
  | neg a => rw [hT] at hprod; simp [isProdNode] at hprod
  | prod l2 r2 =>
    simp only [reassociate]
    have hch2 : prodChain key l2 ++ prodChain key r2 =
        (others ++ sortByKey key symbols).map (fun x => (isSymNode x, x)) := by
      have e1 : prodChain key (Aexpr.prod l2 r2) =
          prodChain key l2 ++ prodChain key r2 := by simp [prodChain]
      rw [← e1, ← hT]
      exact prodChain_mkProdChain key _ hne hYs
    rw [hch2, chainTag_filter_not, chainTag_filter_yes]
    have hf1 : (others ++ sortByKey key symbols).filter
        (fun x => !isSymNode x) = others := by
      rw [List.filter_append]
      have e2 : others.filter (fun x => !isSymNode x) = others :=
        List.filter_eq_self.mpr (fun a ha => by simp [(hO a ha).1])
      have e3 : (sortByKey key symbols).filter (fun x => !isSymNode x) = [] :=
        List.filter_eq_nil_iff.mpr (fun a ha => by simp [(hS' a ha).1])
      rw [e2, e3, List.append_nil]
    have hf2 : (others ++ sortByKey key symbols).filter
        (fun x => isSymNode x) = sortByKey key symbols := by
      rw [List.filter_append]
      have e2 : others.filter (fun x => isSymNode x) = [] :=
        List.filter_eq_nil_iff.mpr (fun a ha => by simp [(hO a ha).1])
      have e3 : (sortByKey key symbols).filter (fun x => isSymNode x) =
          sortByKey key symbols :=
        List.filter_eq_self.mpr (fun a ha => by simp [(hS' a ha).1])
      rw [e2, e3, List.nil_append]
    rw [hf1, hf2, sortByKey_idem]
    exact hT

theorem reassoc_aux {κ : Type} [LinearOrder κ] (key : Aexpr → κ) :
    ∀ (n : ℕ) (e : Aexpr), sizeOf e ≤ n →
      reassociate key (reassociate key e) = reassociate key e ∧
      ∀ bx ∈ prodChain key e,
        bx.1 = isSymNode bx.2 ∧ isProdNode bx.2 = false ∧
          reassociate key bx.2 = bx.2 := by
  intro n
  induction n with
  | zero =>
    intro e he
    exfalso
    cases e <;> simp at he
  | succ n ih =>
    intro e he
    cases e with
    | sym m r =>
      refine ⟨by simp [reassociate], ?_⟩
      intro bx hbx
      simp only [prodChain, List.mem_singleton] at hbx
      subst hbx
      exact ⟨by simp [isSymNode], by simp [isProdNode], by simp [reassociate]⟩
    | div l r =>
      refine ⟨by simp [reassociate], ?_⟩
      intro bx hbx
      simp only [prodChain, List.mem_singleton] at hbx
      subst hbx
      exact ⟨by simp [reassociate, isSymNode], by simp [reassociate, isProdNode],
        by simp [reassociate]⟩
    | neg c =>
      refine ⟨by simp [reassociate], ?_⟩
      intro bx hbx
      simp only [prodChain, List.mem_singleton] at hbx
      subst hbx
      exact ⟨by simp [reassociate, isSymNode], by simp [reassociate, isProdNode],
        by simp [reassociate]⟩
    | par c =>
      have hc := ih c (by simp at he; omega)
      have hP : reassociate key (reassociate key (Aexpr.par c)) =
          reassociate key (Aexpr.par c) := by
        simp only [reassociate]
        rw [hc.1]
      refine ⟨hP, ?_⟩
      intro bx hbx
      simp only [prodChain, List.mem_singleton] at hbx
      subst hbx
      exact ⟨by simp [reassociate, isSymNode], by simp [reassociate, isProdNode], hP⟩
    | sum l r =>
      have hl := ih l (by simp at he; omega)
      have hr := ih r (by simp at he; omega)
      have hP : reassociate key (reassociate key (Aexpr.sum l r)) =
          reassociate key (Aexpr.sum l r) := by
        simp only [reassociate]
        rw [hl.1, hr.1]
      refine ⟨hP, ?_⟩
      intro bx hbx
      simp only [prodChain, List.mem_singleton] at hbx
      subst hbx
      exact ⟨by simp [reassociate, isSymNode], by simp [reassociate, isProdNode], hP⟩
    | sub l r =>
      have hl := ih l (by simp at he; omega)
      have hr := ih r (by simp at he; omega)
      have hP : reassociate key (reassociate key (Aexpr.sub l r)) =
          reassociate key (Aexpr.sub l r) := by
        simp only [reassociate]
        rw [hl.1, hr.1]
      refine ⟨hP, ?_⟩
      intro bx hbx
      simp only [prodChain, List.mem_singleton] at hbx
      subst hbx
      exact ⟨by simp [reassociate, isSymNode], by simp [reassociate, isProdNode], hP⟩
    | prod l r =>
      have hl := ih l (by simp at he; omega)
      have hr := ih r (by simp at he; omega)
      have hQ : ∀ bx ∈ prodChain key l ++ prodChain key r,
          bx.1 = isSymNode bx.2 ∧ isProdNode bx.2 = false ∧
            reassociate key bx.2 = bx.2 := by
        intro bx hbx
        rcases List.mem_append.mp hbx with hbx | hbx
        · exact hl.2 bx hbx
        · exact hr.2 bx hbx
      have hO : ∀ x ∈ ((prodChain key l ++ prodChain key r).filter
            (fun x => !x.1)).map (fun x => x.2),
          isSymNode x = false ∧ isProdNode x = false ∧
            reassociate key x = x := by
        intro x hx
        rcases List.mem_map.mp hx with ⟨bx, hbxf, hbx2⟩
        rcases List.mem_filter.mp hbxf with ⟨hbx, htag⟩
        obtain ⟨h1, h2, h3⟩ := hQ bx hbx
        have hb : bx.1 = false := by simpa using htag
        subst hbx2
        exact ⟨by rw [← h1, hb], h2, h3⟩
      have hS : ∀ x ∈ ((prodChain key l ++ prodChain key r).filter
            (fun x => x.1)).map (fun x => x.2),
          isSymNode x = true ∧ isProdNode x = false ∧
            reassociate key x = x := by
        intro x hx
        rcases List.mem_map.mp hx with ⟨bx, hbxf, hbx2⟩
        rcases List.mem_filter.mp hbxf with ⟨hbx, htag⟩
        obtain ⟨h1, h2, h3⟩ := hQ bx hbx
        subst hbx2
        exact ⟨by rw [← h1]; exact htag, h2, h3⟩
      have hlen : 2 ≤ (((prodChain key l ++ prodChain key r).filter
            (fun x => !x.1)).map (fun x => x.2)).length +
          (((prodChain key l ++ prodChain key r).filter
            (fun x => x.1)).map (fun x => x.2)).length := by
        rw [List.length_map, List.length_map, filter_tag_length,
          List.length_append]
        have h1 := List.length_pos.mpr (prodChain_ne_nil key l)
        have h2 := List.length_pos.mpr (prodChain_ne_nil key r)
        omega
      have hP : reassociate key (reassociate key (Aexpr.prod l r)) =
          reassociate key (Aexpr.prod l r) := by
        simp only [reassociate]
        exact rebuild_fixed key _ _ hO hS hlen
      refine ⟨hP, ?_⟩
      intro bx hbx
      rw [prodChain] at hbx
      exact hQ bx hbx

/-- C7: `reassociate` is idempotent — for any ordering key, a second call
on a statement right-hand side produces a tree structurally equal to the
tree obtained after the first call. -/
theorem c7_reassociate_idempotent {κ : Type} [LinearOrder κ]
    (key : Aexpr → κ) (e : Aexpr) :
    reassociate key (reassociate key e) = reassociate key e :=
  (reassoc_aux key (sizeOf e) e (le_refl _)).1

/-- A `Symbol` node whose value is a Python `int`/`float` literal
(`isinstance(s.symbol, (int, float))`). -/
def isFloatSym : Aexpr → Bool
  | .sym (.num _) _ => true
  | _ => false

/-- The literal value of a numeric `Symbol` (0 elsewhere; only applied to
numeric symbols). -/
def litValue : Aexpr → ℚ
  | .sym (.num q) _ => q
  | _ => 0

/-- `ExpressionFactorizer._premultiply_symbols` (rewriter.py lines
1193-1201): when more than one numeric literal occurs among the symbols of
a `Prod`, fold them into a single leading literal `Symbol(prem)` (omitted
when the product is 1), followed by the remaining symbols; otherwise the
list is returned unchanged.  `reduce(operator.mul, ..., 1.0)` is the left
fold starting at 1. -/
def premultiplySymbols (symbols : List Aexpr) : List Aexpr :=
  let floats := symbols.filter isFloatSym
  if 1 < floats.length then
    let others := symbols.filter (fun s => !isFloatSym s)
    let prem := (floats.map litValue).foldl (fun a b => a * b) 1
    (if prem ≠ 1 then [Aexpr.sym (.num prem) []] else []) ++ others
  else symbols

/-- The product of the numeric literals of a symbol list (1 if none). -/
def litProduct (symbols : List Aexpr) : ℚ :=
  (symbols.filter isFloatSym).foldl (fun a s => a * litValue s) 1

/-- C9: the symbol list handed to `Term` construction by the factorizer's
`Prod` case (`_factorize` passes `self._premultiply_symbols(symbols)` to
`Term.process`) contains at most one numeric literal; the product of its
literals equals the product of the original literals (an absent literal
standing for 1); and the non-literal symbols are passed through
unchanged. -/
theorem c9_premultiply_folds_literals (symbols : List Aexpr) :
    ((premultiplySymbols symbols).filter isFloatSym).length ≤ 1 ∧
    litProduct (premultiplySymbols symbols) = litProduct symbols ∧
    (premultiplySymbols symbols).filter (fun s => !isFloatSym s) =
      symbols.filter (fun s => !isFloatSym s) := by
  rw [premultiplySymbols]
  by_cases hf : 1 < (symbols.filter isFloatSym).length
  · rw [if_pos hf]
    dsimp only
    have hothers_nofloat :
        (symbols.filter (fun s => !isFloatSym s)).filter isFloatSym = [] := by
      rw [List.filter_filter]
      exact List.filter_eq_nil_iff.mpr (fun a _ => by cases h : isFloatSym a <;> simp [h])
    have hothers_keep :
        (symbols.filter (fun s => !isFloatSym s)).filter
          (fun s => !isFloatSym s) = symbols.filter (fun s => !isFloatSym s) := by
      rw [List.filter_filter]
      apply List.filter_congr
      intro a _
      cases h : isFloatSym a <;> simp [h]
    have hprem : ((symbols.filter isFloatSym).map litValue).foldl
        (fun a b => a * b) 1 = litProduct symbols := by
      rw [List.foldl_map]
      rfl
    by_cases hp : ((symbols.filter isFloatSym).map litValue).foldl
        (fun a b => a * b) 1 ≠ 1
    · rw [if_pos hp]
      refine ⟨?_, ?_, ?_⟩
      · rw [List.filter_append, hothers_nofloat, List.append_nil]
        simp [isFloatSym]
      · rw [litProduct, List.filter_append, hothers_nofloat, List.append_nil]
        simp only [List.filter_cons, isFloatSym, List.filter_nil]
        rw [← hprem]
        simp [litValue]
      · rw [List.filter_append, hothers_keep]
        simp [isFloatSym]
    · rw [if_neg hp]
      push_neg at hp
      refine ⟨?_, ?_, ?_⟩
      · rw [List.nil_append, hothers_nofloat]
        simp
      · rw [List.nil_append, litProduct, hothers_nofloat]
        rw [← hprem, hp]
        rfl
      · rw [List.nil_append, hothers_keep]
  · rw [if_neg hf]
    exact ⟨by omega, rfl, rfl⟩

/-- A hoisted-registry entry as `_hoist` consults it: the defining
statement's right-hand side and the dims of the loops sitting in the
entry's placement block (`hoisted_place.children`). -/
structure HoistEntry where
  rvalue : Aexpr
  placeDims : List String
deriving DecidableEq, Repr

/-- `ExpressionExpander.Cache`: `_map` maps keys `(str(exp), str(grp))`
(modelled as the node pair, `str` being faithful on the embedded nodes) to
the expression a previous expansion produced, and `_hits` counts
retrievals per key. -/
structure CacheState where
  map : List ((Aexpr × Aexpr) × Aexpr)
  hits : List ((Aexpr × Aexpr) × Nat)
deriving DecidableEq, Repr

/-- `defaultdict(int)` increment of the hit counter for `k`. -/
def bumpHits (h : List ((Aexpr × Aexpr) × Nat)) (k : Aexpr × Aexpr) :
    List ((Aexpr × Aexpr) × Nat) :=
  match h with
  | [] => [(k, 1)]
  | (k0, m) :: rest =>
    if k0 = k then (k0, m + 1) :: rest else (k0, m) :: bumpHits rest k

/-- The hit count recorded for `k` (0 if none). -/
def hitsOf (h : List ((Aexpr × Aexpr) × Nat)) (k : Aexpr × Aexpr) : Nat :=
  match h.find? (fun e => e.1 = k) with
  | some e => e.2
  | none => 0

/-- `Cache.retrieve`: look the key up; a hit bumps its hit counter. -/
def cacheRetrieve (c : CacheState) (k : Aexpr × Aexpr) :
    Option Aexpr × CacheState :=
  match c.map.find? (fun e => e.1 = k) with
  | some e => (some e.2, { c with hits := bumpHits c.hits k })
  | none => (none, c)

/-- `Cache.invalidate(exp)`: pop every entry whose value equals `exp` and
report whether any popped entry had been hit. -/
def cacheInvalidate (c : CacheState) (exp : Aexpr) : Bool × CacheState :=
  let popped := c.map.filter (fun e => e.2 = exp)
  (popped.any (fun e => 0 < hitsOf c.hits e.1),
   { c with map := c.map.filter (fun e => ¬(e.2 = exp)) })

/-- `Cache.add`. -/
def cacheAdd (c : CacheState) (k : Aexpr × Aexpr) (v : Aexpr) : CacheState :=
  { c with map := c.map ++ [(k, v)] }

/-- `ast_analyzer.ExpressionGraph.add_dependency(sym, expr)`.  Modelled
from the spec (§4.2): add an edge from the name to every symbol of the
expression; if the name already has outgoing edges (it is being
re-assigned), additionally add a self-edge. -/
def addDependency2 (g : DepGraph) (s : SymName) (expr : Aexpr) : DepGraph :=
  let g1 := if outEdges g s ≠ ∅ then addEdge g s s else g
  extractSyms s expr g1

/-- `ast_analyzer.ExpressionGraph.is_read`.  Modelled from the spec
(§4.2): true iff the symbol has an incoming edge. -/
def isRead (g : DepGraph) (s : SymName) : Bool :=
  decide (g.edges.filter (fun e => e.2 = s) ≠ ∅)

/-- The `Symbol` occurrences of an expression in visitor (preorder)
discovery order (`FindInstances(Symbol)`, outside the provided sources). -/
def symList : Aexpr → List Aexpr
  | .sym n r => [.sym n r]
  | .sum l r => symList l ++ symList r
  | .sub l r => symList l ++ symList r
  | .prod l r => symList l ++ symList r
  | .div l r => symList l ++ symList r
  | .par c => symList c
  | .neg c => symList c

/-- The symbol values of an expression in discovery order
(`SymbolReferences` keys, outside the provided sources). -/
def symNameList : Aexpr → List SymName
  | .sym n _ => [n]
  | .sum l r => symNameList l ++ symNameList r
  | .sub l r => symNameList l ++ symNameList r
  | .prod l r => symNameList l ++ symNameList r
  | .div l r => symNameList l ++ symNameList r
  | .par c => symNameList c
  | .neg c => symNameList c

/-- Registry lookup by temporary name (`self.hoisted[name]`). -/
def regLookup (h : List (String × HoistEntry)) (n : String) :
    Option HoistEntry :=
  (h.find? (fun e => e.1 = n)).map (fun e => e.2)

/-- In-place mutation of the entry registered under `n`
(`hoisted_stmt.rvalue = ...` through the registry). -/
def regUpdate (h : List (String × HoistEntry)) (n : String)
    (entry : HoistEntry) : List (String × HoistEntry) :=
  h.map (fun e => if e.1 = n then (e.1, entry) else e)

/-- The first hoisted, `should_expand` symbol of the expanded side:
`[s for s in FindInstances(Symbol).visit(exp)[Symbol]
   if s.symbol in self.hoisted and self.should_expand(s)][0]`. -/
def findHoisted (p : SymName → List String → Bool)
    (hoisted : List (String × HoistEntry)) (exp : Aexpr) : Option Aexpr :=
  ((symList exp).filter (fun s =>
    match s with
    | .sym (.name n) r => (regLookup hoisted n).isSome && p (.name n) r
    | _ => false)).head?

/-- The data-dependency check of `_hoist` on the grouped term.  Modelled
from the spec: walk the enclosing loops innermost-first; fail if any
symbol of `grp` depends on the loop's dim; succeed at the first loop lying
in the hoisted entry's placement block (the temporary's own wrap level). -/
def depCheckLoops (symDeps : SymName → List String) (grpSyms : List SymName)
    (placeDims : List String) : List String → Bool
  | [] => true
  | l :: ls =>
    if grpSyms.any (fun g => l ∈ symDeps g) then false
    else if l ∈ placeDims then true
    else depCheckLoops symDeps grpSyms placeDims ls

/-- Shared state of `ExpressionExpander._hoist`: the hoisted registry, the
expression graph, the expansion cache, the names in `expanded_decls`, and
the expander's `expr_id`. -/
structure HState where
  hoisted : List (String × HoistEntry)
  graph : DepGraph
  cache : CacheState
  expandedDecls : List String
  exprId : Nat
deriving DecidableEq

/-- The new-temporary branch of `_hoist` (rewriter.py lines 992-1010):
synthesize `{exp.symbol}_EXP_{expr_id}_{i}`, register its defining
statement `Assign(new, op(exp, grp))` beside the original entry, add the
graph dependency, cache the expansion, and redirect the replacement to the
new name.  (The `Decl`/loop-body AST surgery accompanies the registry
append and is summarized by it.) -/
def hoistElse (n : String) (rk : List String) (entry : HoistEntry)
    (s grp : Aexpr) (key : Aexpr × Aexpr) (cache1 : CacheState)
    (st : HState) : List (Aexpr × Aexpr) × HState :=
  let newName :=
    n ++ "_EXP_" ++ toString st.exprId ++ "_" ++ toString st.expandedDecls.length
  let expr := Aexpr.prod s grp
  let newSym := Aexpr.sym (.name newName) rk
  ([(s, newSym)],
   { st with
     hoisted := st.hoisted ++ [(newName, { entry with rvalue := expr })],
     graph := addDependency2 st.graph (.name newName) expr,
     cache := cacheAdd cache1 key newSym,
     expandedDecls := st.expandedDecls ++ [newName] })

/-- `ExpressionExpander._hoist` (rewriter.py lines 943-1010) on an
expansion `Prod(exp, grp)`: find a hoisted `should_expand` symbol in
`exp`; consult the cache; run the loop-dependency check on `grp`; then
either aggregate in place (mutating the defining statement's right-hand
side to `op(old_rvalue, grp)` and adding the graph edge) when the
temporary is not read and no hit cache entry for it had to be invalidated,
or synthesize a new temporary.  `info`'s `symbol_refs`/`symbols_dep` are
condensed into `symDeps` (the visitors sit outside the provided sources;
modelled from the spec).  Python's `and` short-circuit means the cache is
only invalidated when `is_read` is false. -/
def hoistF (p : SymName → List String → Bool) (loops : List String)
    (symDeps : SymName → List String) (exp grp : Aexpr) (st : HState) :
    List (Aexpr × Aexpr) × HState :=
  match findHoisted p st.hoisted exp with
  | none => ([], st)
  | some s =>
    let key := (s, grp)
    match cacheRetrieve st.cache key with
    | (some c, cache1) => ([(s, c)], { st with cache := cache1 })
    | (none, _) =>
      match s with
      | .sym (.name n) rk =>
        match regLookup st.hoisted n with
        | none => ([], st)
        | some entry =>
          if depCheckLoops symDeps (symNameList grp) entry.placeDims
              loops.reverse = false then
            ([], st)
          else if isRead st.graph (.name n) = true then
            hoistElse n rk entry s grp key st.cache st
          else
            let inv := cacheInvalidate st.cache s
            if inv.1 = true then hoistElse n rk entry s grp key inv.2 st
            else
              ([(s, s)],
               { st with
                 hoisted := regUpdate st.hoisted n
                   { entry with rvalue := .prod entry.rvalue grp },
                 graph := addDependency2 st.graph (.name n) grp,
                 cache := inv.2 })
      | _ => ([], st)

theorem regUpdate_names (h : List (String × HoistEntry)) (n : String)
    (e : HoistEntry) :
    (regUpdate h n e).map (fun x => x.1) = h.map (fun x => x.1) := by
  induction h with
  | nil => rfl
  | cons x xs ih =>
    by_cases hx : x.1 = n <;>
      simp only [regUpdate, List.map_cons, List.map_map] at ih ⊢ <;>
      simp [hx, ih]

theorem regLookup_update (h : List (String × HoistEntry)) (n : String)
    (e0 e : HoistEntry) (hl : regLookup h n = some e0) :
    regLookup (regUpdate h n e) n = some e := by
  induction h with
  | nil => simp [regLookup] at hl
  | cons x xs ih =>
    by_cases hx : x.1 = n
    · simp [regLookup, regUpdate, List.find?_cons, hx]
    · simp only [regLookup, regUpdate, List.map_cons, if_neg hx] at hl ⊢
      rw [List.find?_cons] at hl ⊢
      simp only [hx] at *
      exact ih hl

/-- C6 (amended): when the expanded side contains a hoisted
`should_expand` symbol, the identical expansion is *not* already cached,
the grouped term passes the loop-dependency check, the temporary is not
read in graph terms and no hit cache entry for it has to be invalidated,
`_hoist` mutates the temporary's defining right-hand side in place to
`op(old_rvalue, grp)` and adds the dependency edge from the temporary to
`grp`, introducing no new temporary: the registry keeps exactly the same
names and `expanded_decls` is untouched. -/
theorem c6_hoist_in_place
    (p : SymName → List String → Bool) (loops : List String)
    (symDeps : SymName → List String) (exp grp : Aexpr) (st : HState)
    (n : String) (rk : List String) (entry : HoistEntry)
    (h1 : findHoisted p st.hoisted exp = some (.sym (.name n) rk))
    (h2 : (cacheRetrieve st.cache (.sym (.name n) rk, grp)).1 = none)
    (h3 : regLookup st.hoisted n = some entry)
    (h4 : depCheckLoops symDeps (symNameList grp) entry.placeDims
      loops.reverse = true)
    (h5 : isRead st.graph (.name n) = false)
    (h6 : (cacheInvalidate st.cache (.sym (.name n) rk)).1 = false) :
    hoistF p loops symDeps exp grp st =
      ([((.sym (.name n) rk : Aexpr), (.sym (.name n) rk : Aexpr))],
       { st with
         hoisted := regUpdate st.hoisted n
           { entry with rvalue := .prod entry.rvalue grp },
         graph := addDependency2 st.graph (.name n) grp,
         cache := (cacheInvalidate st.cache (.sym (.name n) rk)).2 }) ∧
    regLookup (regUpdate st.hoisted n
        { entry with rvalue := .prod entry.rvalue grp }) n =
      some { entry with rvalue := .prod entry.rvalue grp } ∧
    (regUpdate st.hoisted n
        { entry with rvalue := .prod entry.rvalue grp }).map (fun x => x.1) =
      st.hoisted.map (fun x => x.1) := by
  refine ⟨?_, regLookup_update _ _ _ _ h3, regUpdate_names _ _ _⟩
  rw [hoistF, h1]
  have hcr : cacheRetrieve st.cache (Aexpr.sym (.name n) rk, grp) =
      (none, (cacheRetrieve st.cache (Aexpr.sym (.name n) rk, grp)).2) := by
    rcases hx : cacheRetrieve st.cache (Aexpr.sym (SymName.name n) rk, grp)
      with ⟨o, c⟩
    rw [hx] at h2
    dsimp only at h2
    rw [h2]
  dsimp only
  rw [hcr]
  dsimp only
  rw [h3]
  dsimp only
  rw [if_neg (by simp [h4]), if_neg (by simp [h5]), if_neg (by simp [h6])]

/-- The registry entry `t = a` used by the `_hoist` examples. -/
def exEntry6 : HoistEntry := ⟨.sym (.name "a") [], []⟩

/-- An all-true `should_expand` predicate for the `_hoist` examples. -/
def exP6 : SymName → List String → Bool := fun _ _ => true

/-- No symbol depends on any loop in the `_hoist` examples. -/
def exDeps6 : SymName → List String := fun _ => []

/-- The graph after hoisting `t = a`: a single edge `t → a`. -/
def exG6 : DepGraph := ⟨{.name "t", .name "a"}, {(.name "t", .name "a")}⟩

/-- State for the in-place aggregation witness: `t` hoisted, empty cache. -/
def exSt6 : HState := ⟨[("t", exEntry6)], exG6, ⟨[], []⟩, [], 0⟩

/-- Witness for `c6_hoist_in_place` at a concrete input. -/
theorem c6_hoist_in_place_witness :
    hoistF exP6 [] exDeps6 (.sym (.name "t") []) (.sym (.name "c") []) exSt6 =
      ([((.sym (.name "t") [] : Aexpr), (.sym (.name "t") [] : Aexpr))],
       { exSt6 with
         hoisted := regUpdate exSt6.hoisted "t"
           { exEntry6 with
             rvalue := .prod exEntry6.rvalue (.sym (.name "c") []) },
         graph := addDependency2 exSt6.graph (.name "t") (.sym (.name "c") []),
         cache := (cacheInvalidate exSt6.cache (.sym (.name "t") [])).2 }) ∧
    regLookup (regUpdate exSt6.hoisted "t"
        { exEntry6 with
          rvalue := .prod exEntry6.rvalue (.sym (.name "c") []) }) "t" =
      some { exEntry6 with
        rvalue := .prod exEntry6.rvalue (.sym (.name "c") []) } ∧
    (regUpdate exSt6.hoisted "t"
        { exEntry6 with
          rvalue := .prod exEntry6.rvalue (.sym (.name "c") []) }).map
        (fun x => x.1) =
      exSt6.hoisted.map (fun x => x.1) :=
  c6_hoist_in_place exP6 [] exDeps6 (.sym (.name "t") [])
    (.sym (.name "c") []) exSt6 "t" [] exEntry6
    (by decide) (by decide) (by decide) (by decide) (by decide) (by decide)

/-- A cache already holding the expansion `(t, c) ↦ x`. -/
def exCache6 : CacheState :=
  ⟨[(((.sym (.name "t") [] : Aexpr), (.sym (.name "c") [] : Aexpr)),
     .sym (.name "x") [])], []⟩

/-- Same state as the witness, but with the expansion already cached. -/
def exStC6 : HState := ⟨[("t", exEntry6)], exG6, exCache6, [], 0⟩

/-- The `_hoist` call on the cached state. -/
def exHoist6 : List (Aexpr × Aexpr) × HState :=
  hoistF exP6 [] exDeps6 (.sym (.name "t") []) (.sym (.name "c") []) exStC6

/-- C6, counterexample.  The claim's three conditions hold — `grp = c`
depends on no enclosing loop, `t` is not read by any other symbol, and no
cached expansion of `t` would be invalidated — yet because the identical
aggregation `(t, c)` is already cached, `_hoist` returns the cached symbol
without touching the defining statement (its right-hand side stays `a`,
not `a * c`) and without adding the edge `t → c`. -/
theorem c6_counterexample :
    depCheckLoops exDeps6 (symNameList (.sym (.name "c") []))
      exEntry6.placeDims ([] : List String).reverse = true ∧
    isRead exStC6.graph (.name "t") = false ∧
    (cacheInvalidate exStC6.cache (.sym (.name "t") [])).1 = false ∧
    exHoist6.1 = [((.sym (.name "t") [] : Aexpr), .sym (.name "x") [])] ∧
    exHoist6.2.hoisted = exStC6.hoisted ∧
    regLookup exHoist6.2.hoisted "t" = some exEntry6 ∧
    exEntry6.rvalue ≠ .prod exEntry6.rvalue (.sym (.name "c") []) ∧
    ((.name "t", .name "c") : SymName × SymName) ∉ exHoist6.2.graph.edges ∧
    exHoist6.2.expandedDecls = exStC6.expandedDecls := by
  refine ⟨by decide, by decide, by decide, by decide, by decide, by decide,
    by decide, by decide, by decide⟩

/-- Operator tags for `Term.op` and `ast_make_expr`. -/
inductive OpTag where
  | sumOp : OpTag
  | subOp : OpTag
  | prodOp : OpTag
deriving DecidableEq, Repr

/-- Apply an operator tag as a binary node constructor. -/
def applyOp (op : OpTag) (a b : Aexpr) : Aexpr :=
  match op with
  | .sumOp => .sum a b
  | .subOp => .sub a b
  | .prodOp => .prod a b

/-- `ast_make_expr(op, exprs)`.  Modelled from the spec: the left-nested
`op`-chain of a list; `none` for the empty list; a singleton list yields
its element (so the `op=None` Terms of the source, which only ever carry
at most one factor into this call, never consult the tag). -/
def mkOpChain (op : OpTag) : List Aexpr → Option Aexpr
  | [] => none
  | x :: xs => some (xs.foldl (applyOp op) x)

/-- `ExpressionFactorizer.Term`: ordered operands (symbols being
collected), ordered factors (everything multiplied alongside), and the
`op` joining the factors. -/
structure FTerm where
  operands : List Aexpr
  factors : List Aexpr
  op : Option OpTag
deriving DecidableEq, Repr

/-- `Term.operands_ast`. -/
def operandsAst (t : FTerm) : Option Aexpr := mkOpChain .prodOp t.operands

/-- `Term.factors_ast`. -/
def factorsAst (t : FTerm) : Option Aexpr :=
  mkOpChain (t.op.getD .prodOp) t.factors

/-- `Term.generate_ast`. -/
def generateAst (t : FTerm) : Option Aexpr :=
  if t.factors = [] then operandsAst t
  else if t.operands = [] then factorsAst t
  else if t.factors.length = 1 ∧ ∀ f ∈ t.factors, f = .sym (.num 1) [] then
    operandsAst t
  else
    match operandsAst t, factorsAst t with
    | some o, some f => some (.prod o f)
    | some o, none => some o
    | none, f => f

/-- `Term.add_operands`: append each operand not already present. -/
def addOperands (t : FTerm) (os : List Aexpr) : FTerm :=
  os.foldl
    (fun acc o =>
      if o ∈ acc.operands then acc
      else { acc with operands := acc.operands ++ [o] })
    t

/-- `Term.add_factors`: append each factor not already present. -/
def addFactors (t : FTerm) (fs : List Aexpr) : FTerm :=
  fs.foldl
    (fun acc f =>
      if f ∈ acc.factors then acc
      else { acc with factors := acc.factors ++ [f] })
    t

/-- `Term.process`: split symbols into operands (those satisfying
`should_factorize`) and factors (the rest). -/
def termProcess (symbols : List Aexpr) (p : Aexpr → Bool)
    (op : Option OpTag) : FTerm :=
  ⟨symbols.filter p, symbols.filter (fun s => !p s), op⟩

/-- `Symbol.urepr`: the (value, rank) pair identifying a symbol. -/
def urepr : Aexpr → Option (SymName × List String)
  | .sym n r => some (n, r)
  | _ => none

/-- One `setdefault`-style grouping step for `_simplify_sum`. -/
def insertGroup (acc : List (Option Aexpr × FTerm × Nat)) (k : Option Aexpr)
    (t : FTerm) : List (Option Aexpr × FTerm × Nat) :=
  match acc with
  | [] => [(k, t, 1)]
  | (k0, t0, c0) :: rest =>
    if k0 = k then (k0, t0, c0 + 1) :: rest
    else (k0, t0, c0) :: insertGroup rest k t

/-- `ExpressionFactorizer._simplify_sum` (rewriter.py lines 1153-1164):
group syntactically identical terms (keyed by `str(t.generate_ast)`,
modelled by the generated tree), keep the first of each group, and promote
a duplicate count greater than one into a numeric factor. -/
def simplifySum (terms : List FTerm) : List FTerm :=
  (terms.foldl (fun acc t => insertGroup acc (generateAst t) t) []).map
    (fun e =>
      if 1 < e.2.2 then addFactors e.2.1 [.sym (.num (e.2.2 : ℚ)) []]
      else e.2.1)

/-- `setdefault`-append of an index under a urepr key (the `tracker` of
`_heuristic_collection`). -/
def trackAdd (acc : List ((SymName × List String) × List Nat))
    (u : SymName × List String) (i : Nat) :
    List ((SymName × List String) × List Nat) :=
  match acc with
  | [] => [(u, [i])]
  | (u0, is0) :: rest =>
    if u0 = u then (u0, is0 ++ [i]) :: rest
    else (u0, is0) :: trackAdd rest u i

/-- `setdefault`-append of a urepr under a term-tuple key (the
`reverse_tracker`). -/
def rtrackAdd (acc : List (List Nat × List (SymName × List String)))
    (ts : List Nat) (u : SymName × List String) :
    List (List Nat × List (SymName × List String)) :=
  match acc with
  | [] => [(ts, [u])]
  | (ts0, us0) :: rest =>
    if ts0 = ts then (ts0, us0 ++ [u]) :: rest
    else (ts0, us0) :: rtrackAdd rest ts u

/-- Move the factors whose urepr lies in `s` into the operands
(`t.remove_factors(new_operands); t.add_operands(new_operands)`). -/
def moveFactors (t : FTerm) (s : List (SymName × List String)) : FTerm :=
  let isSel : Aexpr → Bool := fun f =>
    match urepr f with
    | some u => u ∈ s
    | none => false
  let newOps := t.factors.filter isSel
  addOperands { t with factors := t.factors.filter (fun f => !isSel f) } newOps

/-- The greedy branch of `_heuristic_collection`: pick entries covering at
least two not-yet-handled terms. -/
def greedySelect (rtr : List (List Nat × List (SymName × List String))) :
    List (List Nat × List (SymName × List String)) :=
  (rtr.foldl
    (fun (acc : List (List Nat × List (SymName × List String)) × List Nat) e =>
      if 1 < e.1.length ∧ ∀ i ∈ e.1, i ∉ acc.2 then
        (acc.1 ++ [e], acc.2 ++ e.1)
      else acc)
    ([], [])).1

/-- `ExpressionFactorizer._heuristic_collection` (rewriter.py lines
1166-1191): when the heuristic flag is set and no term has operands yet,
track which terms contain each factor symbol (terms modelled by their
index), adopt the symbols occurring in every term as operands, or
otherwise greedily pick symbols covering at least two unhandled terms, and
move the chosen symbols from factors to operands. -/
def heuristicCollect (heuristic : Bool) (terms : List FTerm) : List FTerm :=
  if ¬heuristic ∨ terms.any (fun t => t.operands ≠ []) then terms
  else
    let tr := (terms.enum).foldl
      (fun acc it =>
        (it.2.factors.filterMap urepr).foldl
          (fun acc2 u => trackAdd acc2 u it.1) acc)
      []
    let rtr := tr.foldl (fun acc e => rtrackAdd acc e.2 e.1) []
    let full := rtr.filter (fun e => e.1 = List.range terms.length)
    let sel := if full ≠ [] then full else greedySelect rtr
    sel.foldl
      (fun acc e =>
        (acc.enum).map (fun it => if it.1 ∈ e.1 then moveFactors it.2 e.2 else it.2))
      terms

/-- `ExpressionFactorizer._filter` (rewriter.py lines 1203-1213): a term
is protected from factorization when its operand is a symbol with an
`adhoc` co-operand list and none of its factors mentions a forbidden
co-operand. -/
def adhocFilter
    (adhoc : List ((SymName × List String) × List (SymName × List String)))
    (ft : FTerm) : Bool :=
  match operandsAst ft with
  | none => false
  | some o =>
    match urepr o with
    | none => false
    | some u =>
      let grp := ((adhoc.find? (fun e => e.1 = u)).map (fun e => e.2)).getD []
      if grp = [] then false
      else
        !(ft.factors.any (fun f =>
          (symList f).any (fun s =>
            match urepr s with
            | some u2 => u2 ∈ grp
            | none => false)))

/-- One step of the operand-grouping `OrderedDict` of `_factorize`'s
`Sum`/`Sub` branch: `adhoc`-protected terms are stored under their own
(unique, index) key, others under `str(t.operands_ast)` with their factor
chains merged by `add_factors`. -/
def groupStep (op : OpTag)
    (adhoc : List ((SymName × List String) × List (SymName × List String)))
    (acc : List ((Nat ⊕ Option Aexpr) × FTerm)) (it : Nat × FTerm) :
    List ((Nat ⊕ Option Aexpr) × FTerm) :=
  let t := it.2
  let operand : List Aexpr :=
    if t.operands = [] then []
    else
      match operandsAst t with
      | some o => [o]
      | none => []
  let factor : List Aexpr :=
    if t.factors = [] then [.sym (.num 1) []]
    else
      match factorsAst t with
      | some f => [f]
      | none => [.sym (.num 1) []]
  let ft : FTerm := ⟨operand, factor, some op⟩
  if adhocFilter adhoc ft then acc ++ [(Sum.inl it.1, t)]
  else
    match acc.find? (fun e => e.1 = Sum.inr (operandsAst t)) with
    | some _ =>
      acc.map (fun e =>
        if e.1 = Sum.inr (operandsAst t) then (e.1, addFactors e.2 factor)
        else e)
    | none => acc ++ [(Sum.inr (operandsAst t), addFactors ft factor)]

/-- The factorized replacement of a `Sum`/`Sub` node: group the terms,
generate each group's AST and join them with `Sum`
(`factorized = ast_make_expr(Sum, factorized)`). -/
def groupFactorize (op : OpTag)
    (adhoc : List ((SymName × List String) × List (SymName × List String)))
    (terms : List FTerm) : Aexpr :=
  let entries := (terms.enum).foldl (groupStep op adhoc) []
  ((mkOpChain .sumOp ((entries.map (fun e => generateAst e.2)).filterMap id)).getD
    (.sym (.num 0) []))

mutual
/-- `ExpressionFactorizer._factorize` (rewriter.py lines 1215-1273) as a
pure function returning the `Term` of the node and the rewritten tree:
a `Symbol` is split by `Term.process`; `Par` recurses; `FunCall`/`Div`
factorize within their children and return an opaque single-factor term;
a `Prod` flattens its operator chain (`explore_operator`, outside the
provided sources, modelled as the flatten of nested `Prod`s), premultiplies
the numeric literal symbols (`_premultiply_symbols`) before handing the
symbol list to `Term.process`, factorizes the non-symbol operands in
place, and merges their terms; a `Sum`/`Sub` collects one term per chain
addend, deduplicates them (`_simplify_sum`), optionally applies the
heuristic collection, groups by operand list, and replaces the node with
the `Sum` of the groups' generated ASTs; any other node (e.g. `Neg`)
returns an opaque term through the `else` branch, whose `raise` is dead
code after `return`. -/
def factorizeF (p : Aexpr → Bool)
    (adhoc : List ((SymName × List String) × List (SymName × List String)))
    (heuristic : Bool) : Aexpr → FTerm × Aexpr
  | .sym n r => (termProcess [.sym n r] p none, .sym n r)
  | .par c =>
    let tc := factorizeF p adhoc heuristic c
    (tc.1, .par tc.2)
  | .div l r =>
    let tl := factorizeF p adhoc heuristic l
    let tr := factorizeF p adhoc heuristic r
    (⟨[], [.div tl.2 tr.2], none⟩, .div tl.2 tr.2)
  | .neg c => (⟨[], [.neg c], none⟩, .neg c)
  | .prod l r =>
    let cl := prodCollect p adhoc heuristic l
    let cr := prodCollect p adhoc heuristic r
    let syms := premultiplySymbols (cl.1 ++ cr.1)
    let factorized := termProcess syms p (some .prodOp)
    let merged := (cl.2.1 ++ cr.2.1).foldl
      (fun acc t => addFactors (addOperands acc t.operands) t.factors)
      factorized
    (merged, .prod cl.2.2 cr.2.2)
  | .sum l r =>
    let terms := sumCollect p adhoc heuristic l ++ sumCollect p adhoc heuristic r
    let terms2 := heuristicCollect heuristic (simplifySum terms)
    let tree := groupFactorize .sumOp adhoc terms2
    (⟨[], [tree], none⟩, tree)
  | .sub l r =>
    let terms := subCollect p adhoc heuristic l ++ subCollect p adhoc heuristic r
    let terms2 := heuristicCollect heuristic (simplifySum terms)
    let tree := groupFactorize .subOp adhoc terms2
    (⟨[], [tree], none⟩, tree)
termination_by e => (sizeOf e, 0)

/-- The `explore_operator` walk of a `Prod` chain: the `Symbol` operands
in order, the terms of the factorized non-`Symbol` operands, and the
rebuilt tree (non-`Symbol` chain leaves replaced in place). -/
def prodCollect (p : Aexpr → Bool)
    (adhoc : List ((SymName × List String) × List (SymName × List String)))
    (heuristic : Bool) :
    Aexpr → List Aexpr × List FTerm × Aexpr
  | .prod l r =>
    let cl := prodCollect p adhoc heuristic l
    let cr := prodCollect p adhoc heuristic r
    (cl.1 ++ cr.1, cl.2.1 ++ cr.2.1, .prod cl.2.2 cr.2.2)
  | .sym n r => ([.sym n r], [], .sym n r)
  | .par c =>
    let tc := factorizeF p adhoc heuristic (.par c)
    ([], [tc.1], tc.2)
  | .sum l r =>
    let tc := factorizeF p adhoc heuristic (.sum l r)
    ([], [tc.1], tc.2)
  | .sub l r =>
    let tc := factorizeF p adhoc heuristic (.sub l r)
    ([], [tc.1], tc.2)
  | .div l r =>
    let tc := factorizeF p adhoc heuristic (.div l r)
    ([], [tc.1], tc.2)
  | .neg c =>
    let tc := factorizeF p adhoc heuristic (.neg c)
    ([], [tc.1], tc.2)
termination_by e => (sizeOf e, 1)

/-- The `explore_operator` walk of a `Sum` chain: one term per addend. -/
def sumCollect (p : Aexpr → Bool)
    (adhoc : List ((SymName × List String) × List (SymName × List String)))
    (heuristic : Bool) : Aexpr → List FTerm
  | .sum l r => sumCollect p adhoc heuristic l ++ sumCollect p adhoc heuristic r
  | .sym n r => [(factorizeF p adhoc heuristic (.sym n r)).1]
  | .par c => [(factorizeF p adhoc heuristic (.par c)).1]
  | .sub l r => [(factorizeF p adhoc heuristic (.sub l r)).1]
  | .prod l r => [(factorizeF p adhoc heuristic (.prod l r)).1]
  | .div l r => [(factorizeF p adhoc heuristic (.div l r)).1]
  | .neg c => [(factorizeF p adhoc heuristic (.neg c)).1]
termination_by e => (sizeOf e, 1)

/-- The `explore_operator` walk of a `Sub` chain: one term per addend. -/
def subCollect (p : Aexpr → Bool)
    (adhoc : List ((SymName × List String) × List (SymName × List String)))
    (heuristic : Bool) : Aexpr → List FTerm
  | .sub l r => subCollect p adhoc heuristic l ++ subCollect p adhoc heuristic r
  | .sym n r => [(factorizeF p adhoc heuristic (.sym n r)).1]
  | .par c => [(factorizeF p adhoc heuristic (.par c)).1]
  | .sum l r => [(factorizeF p adhoc heuristic (.sum l r)).1]
  | .prod l r => [(factorizeF p adhoc heuristic (.prod l r)).1]
  | .div l r => [(factorizeF p adhoc heuristic (.div l r)).1]
  | .neg c => [(factorizeF p adhoc heuristic (.neg c)).1]
termination_by e => (sizeOf e, 1)
end

/-- Statement state seen by the rewriter facade: its right-hand side. -/
structure FacadeState where
  rvalue : Aexpr
deriving DecidableEq, Repr

/-- The outcome of a facade call: an exception escaped (`raised`), the
method returned `None` (`retNone`, unknown mode), or it returned the
rewriter `self` (`retSelf`); both returns carry the statement state. -/
inductive FRes where
  | raised : FRes
  | retNone : FacadeState → FRes
  | retSelf : FacadeState → FRes
deriving DecidableEq, Repr

/-- The `Symbol` occurrences of the right-hand side as (value, rank). -/
def symbolOccs (e : Aexpr) : List (SymName × List String) :=
  (symList e).filterMap (fun s =>
    match s with
    | .sym n r => some (n, r)
    | _ => none)

/-- Run the expander on the statement (`self.expr_expander.expand`): the
core expansion rewrite of claim C3; a `RuntimeError` surfaces as
`raised`.  (The optional aggregation with hoisted temporaries, `_hoist`,
follows per emitted expansion and is modelled separately by `hoistF`; it
plays no role in the mode dispatch settled here.) -/
def runExpand (p : SymName → List String → Bool) (st : FacadeState) : FRes :=
  match expandX p st.rvalue with
  | some r => FRes.retSelf ⟨r.2.2⟩
  | none => FRes.raised

/-- Lift a symbol predicate to `Aexpr` nodes (false off `Symbol`s). -/
def symP (q : SymName → List String → Bool) : Aexpr → Bool
  | .sym n r => q n r
  | _ => false

/-- Run the factorizer on the statement
(`self.expr_factorizer.factorize`). -/
def runFactorize (p : Aexpr → Bool)
    (adhoc : List ((SymName × List String) × List (SymName × List String)))
    (heuristic : Bool) (st : FacadeState) : FRes :=
  FRes.retSelf ⟨(factorizeF p adhoc heuristic st.rvalue).2⟩

/-- `ExpressionRewriter.expand` (rewriter.py lines 125-211): dispatch on
the mode string.  `standard` chooses the expansion dimension
(`chooseStandardDim`) and expands along it, returning `self` unchanged
when no occurrence exists; `dimensions` uses the caller-provided dims;
`all`/`domain`/`outdomain` build the predicate from a symbol-keyed loop
dependence analysis (an empty dependence list standing for a missing or
empty entry, both falsy in the source); any other mode warns and returns
`None` with the statement untouched. -/
def expandFacade (mode : String) (dd od exprDims : List String)
    (ldaS : SymName → List String) (dimsKw : List String)
    (st : FacadeState) : FRes :=
  if mode = "standard" then
    match chooseStandardDim dd od (symbolOccs st.rvalue) with
    | none => FRes.retSelf st
    | some dimension =>
      runExpand (fun _ r => decide (∀ d ∈ dimension, d ∈ r)) st
  else if mode = "dimensions" then
    runExpand (fun _ r => decide (∀ d ∈ dimsKw, d ∈ r)) st
  else if mode = "all" then
    runExpand
      (fun n _ => !(ldaS n).isEmpty && (ldaS n).any (fun d => d ∈ exprDims)) st
  else if mode = "domain" then
    runExpand (fun n _ => !(ldaS n).isEmpty && (ldaS n).any (fun d => d ∈ dd)) st
  else if mode = "outdomain" then
    runExpand
      (fun n _ => !(ldaS n).isEmpty && !(ldaS n).all (fun d => d ∈ dd)) st
  else FRes.retNone st

/-- `ExpressionRewriter.factorize` (rewriter.py lines 213-302): dispatch
on the mode string; `adhoc` with an empty mapping returns `self`
unchanged, `heuristic` sets the heuristic flag with an all-false
predicate, `constants` collects loop-independent symbols; any other mode
warns and returns `None` with the statement untouched. -/
def factorizeFacade (mode : String) (dd od exprDims : List String)
    (ldaS : SymName → List String) (dimsKw : List String)
    (adhocKw : List ((SymName × List String) × List (SymName × List String)))
    (st : FacadeState) : FRes :=
  if mode = "standard" then
    match chooseStandardDim dd od (symbolOccs st.rvalue) with
    | none => FRes.retSelf st
    | some dimension =>
      runFactorize (symP (fun _ r => decide (∀ d ∈ dimension, d ∈ r))) [] false st
  else if mode = "dimensions" then
    runFactorize (symP (fun _ r => decide (∀ d ∈ dimsKw, d ∈ r))) [] false st
  else if mode = "adhoc" then
    if adhocKw = [] then FRes.retSelf st
    else
      runFactorize
        (fun s =>
          match urepr s with
          | some u => (adhocKw.find? (fun e => e.1 = u)).isSome
          | none => false)
        (if adhocKw.any (fun e => e.2 ≠ []) then adhocKw else []) false st
  else if mode = "heuristic" then
    runFactorize (fun _ => false) [] true st
  else if mode = "all" then
    runFactorize
      (symP (fun n _ => !(ldaS n).isEmpty && (ldaS n).any (fun d => d ∈ exprDims)))
      [] false st
  else if mode = "domain" then
    runFactorize
      (symP (fun n _ => !(ldaS n).isEmpty && (ldaS n).any (fun d => d ∈ dd)))
      [] false st
  else if mode = "outdomain" then
    runFactorize
      (symP (fun n _ => !(ldaS n).isEmpty && !(ldaS n).all (fun d => d ∈ dd)))
      [] false st
  else if mode = "constants" then
    runFactorize (symP (fun n _ => (ldaS n).isEmpty)) [] false st
  else FRes.retNone st

/-- C10: a mode string outside the recognized lists makes both `expand`
and `factorize` return `None` — so the call cannot be chained — and the
statement is left completely unchanged (the returned state is the input
state). -/
theorem c10_unknown_mode_returns_none (mode : String)
    (dd od exprDims : List String) (ldaS : SymName → List String)
    (dimsKw : List String)
    (adhocKw : List ((SymName × List String) × List (SymName × List String)))
    (st : FacadeState)
    (h1 : mode ∉ ["standard", "dimensions", "all", "domain", "outdomain"])
    (h2 : mode ∉ ["standard", "dimensions", "adhoc", "heuristic", "all",
      "domain", "outdomain", "constants"]) :
    expandFacade mode dd od exprDims ldaS dimsKw st = FRes.retNone st ∧
    factorizeFacade mode dd od exprDims ldaS dimsKw adhocKw st =
      FRes.retNone st := by
  simp only [List.mem_cons, List.mem_singleton, not_or] at h1 h2
  constructor
  · rw [expandFacade, if_neg h1.1, if_neg h1.2.1, if_neg h1.2.2.1,
      if_neg h1.2.2.2.1, if_neg h1.2.2.2.2.1]
  · rw [factorizeFacade, if_neg h2.1, if_neg h2.2.1, if_neg h2.2.2.1,
      if_neg h2.2.2.2.1, if_neg h2.2.2.2.2.1, if_neg h2.2.2.2.2.2.1,
      if_neg h2.2.2.2.2.2.2.1, if_neg h2.2.2.2.2.2.2.2.1]
  
/-- Witness for `c10_unknown_mode_returns_none` at a concrete input. -/
theorem c10_unknown_mode_returns_none_witness :
    expandFacade "bogus" [] [] [] (fun _ => []) [] ⟨.sym (.name "x") []⟩ =
      FRes.retNone ⟨.sym (.name "x") []⟩ ∧
    factorizeFacade "bogus" [] [] [] (fun _ => []) [] []
        ⟨.sym (.name "x") []⟩ =
      FRes.retNone ⟨.sym (.name "x") []⟩ :=
  c10_unknown_mode_returns_none "bogus" [] [] [] (fun _ => []) [] []
    ⟨.sym (.name "x") []⟩ (by decide) (by decide)
